import Mathlib

/-!
# csv_solver: the formula evaluator of `csv_solver.go`

A shallow embedding of the Go program and theorems about it.

Conventions of the embedding.

* A Go `string` is a sequence of bytes.  It is modelled as a `List Char` holding one
  `Char` per byte (the character whose code is the byte, so every code is below 256).
  Formulas in examples are written `"sum(A1, B1)".toList`.
* Go `int` values are `Int`; lengths are `Nat`.
* A Go run-time panic (index or slice out of range) is the outcome `Outcome.panic`.
* `evaluateEquation` is recursive and need not terminate; the embedding takes a
  recursion budget and answers `Outcome.timeout` when the budget is used up.
* The global variable `table` is passed explicitly.  `evaluateEquation` only reads it;
  `evaluateTable` is the only writer and returns the new table.
-/

namespace CsvSolver

/-- A Go string: the list of its bytes. -/
abbrev GoString := List Char

/-- The result of running a piece of the program. -/
inductive Outcome (α : Type) where
  /-- the call returned this value -/
  | done (a : α)
  /-- the call stopped in a run-time panic -/
  | panic
  /-- the recursion budget of the embedding was used up -/
  | timeout
deriving DecidableEq, Repr

/-- The Go struct `Cell`. -/
structure Cell where
  value : GoString
  equation : GoString
  column : Int
  row : Int
  evaluated : Bool
deriving DecidableEq, Repr

/-- The type of the global `table [][]Cell`. -/
abbrev Table := List (List Cell)

/-! ## Constants -/

def CONCAT : GoString := "concat".toList
def TEXT : GoString := "text".toList
def SUM : GoString := "sum".toList
def FORMULA_COPY : GoString := "^^".toList
def SPREAD : GoString := "spread".toList
def INC_FROM : GoString := "incFrom".toList
def SPLIT : GoString := "split".toList

/-- The error value `"#ERROR"`. -/
def errorValue : GoString := "#ERROR".toList

/-- The value `"#CANNOT_CONCATENATE_NON_STRING"`. -/
def cannotConcatenate : GoString := "#CANNOT_CONCATENATE_NON_STRING".toList

/-! ## The Go run-time and library operations the program uses -/

/-- Go `xs[i]` for an `int` index: `none` stands for the index-out-of-range panic. -/
def index {α : Type} (xs : List α) (i : Int) : Option α :=
  if i < 0 then none else xs[i.toNat]?

/-- Go `s[lo:hi]`: `none` stands for the slice-bounds-out-of-range panic. -/
def slice (s : GoString) (lo hi : Int) : Option GoString :=
  if 0 ≤ lo ∧ lo ≤ hi ∧ hi ≤ (s.length : Int) then
    some ((s.take hi.toNat).drop lo.toNat)
  else none

/-- Go `string(b)` for a byte `b`: the UTF-8 encoding of the code point `b`, one byte
below 128 and two bytes from 128 on. -/
def byteString (b : Char) : GoString :=
  if b.toNat < 128 then [b]
  else [Char.ofNat (192 + b.toNat / 64), Char.ofNat (128 + b.toNat % 64)]

/-- Go `b - 1` on a byte (wrapping). -/
def byteSub (b : Char) (k : Nat) : Char :=
  Char.ofNat ((b.toNat + 256 - k % 256) % 256)

/-- Go `unicode.IsDigit(rune(b))` for a byte `b`. -/
def isDigit (b : Char) : Bool :=
  48 ≤ b.toNat && b.toNat ≤ 57

/-- Go `unicode.IsLetter(rune(b))` for a byte `b` (the Latin-1 letters). -/
def isLetter (b : Char) : Bool :=
  let n := b.toNat
  (65 ≤ n && n ≤ 90) || (97 ≤ n && n ≤ 122) || n == 170 || n == 181 || n == 186
    || (192 ≤ n && n ≤ 214) || (216 ≤ n && n ≤ 246) || (248 ≤ n && n ≤ 255)

/-- Go `strings.HasPrefix(s, p)`. -/
def hasPrefix (s p : GoString) : Bool := p.isPrefixOf s

/-- Go `strings.HasSuffix(s, p)`. -/
def hasSuffix (s p : GoString) : Bool := p.isSuffixOf s

/-- Go `strings.Index(s, string(c))` for a one-byte pattern: the first position of `c`,
or `-1`. -/
def indexByte : GoString → Char → Int
  | [], _ => -1
  | x :: xs, c =>
    if x = c then 0
    else
      let r := indexByte xs c
      if r < 0 then -1 else r + 1

/-- Go `strings.Join(elems, sep)`. -/
def join : List GoString → GoString → GoString
  | [], _ => []
  | [x], _ => x
  | x :: y :: rest, sep => x ++ sep ++ join (y :: rest) sep

/-- Go `strings.Replace(s, string(c), "", -1)`: every occurrence of the byte removed. -/
def removeByte (s : GoString) (c : Char) : GoString :=
  s.filter (fun x => x != c)

/-- The value of a decimal digit. -/
def digitValue (c : Char) : Nat := c.toNat - 48

/-- The number written by a string of decimal digits (most significant first), starting
from the accumulator `acc`; `none` when a byte is not a digit. -/
def parseDigits : GoString → Nat → Option Nat
  | [], acc => some acc
  | c :: cs, acc => if isDigit c then parseDigits cs (acc * 10 + digitValue c) else none

/-- Base-10 integer syntax shared by `strconv.ParseInt`, `strconv.Atoi` and
`big.Int.SetString`: an optional sign and one digit or more. -/
def parseInt (s : GoString) : Option Int :=
  match s with
  | [] => none
  | c :: cs =>
    if c = '+' then
      (if cs = [] then none else (parseDigits cs 0).map Int.ofNat)
    else if c = '-' then
      (if cs = [] then none else (parseDigits cs 0).map (fun n => -(n : Int)))
    else (parseDigits (c :: cs) 0).map Int.ofNat

/-- Go `strconv.Atoi(s)` with the error dropped (`n, _ := strconv.Atoi(s)`): the result
is `0` when the text is not an integer.  (The program only passes the encoding of one
byte, so the range of `int` plays no part.) -/
def atoi (s : GoString) : Int := (parseInt s).getD 0

/-! ## The decimal library

`evaluateSum` computes with `github.com/shopspring/decimal`, which is imported by the
program and is not part of it.  The definitions of this section describe the three
library operations the program calls: `decimal.NewFromString`, `Decimal.Add` and
`Decimal.String`. -/

/-- Modelled from the spec: the "exact decimal" of the imported package
`github.com/shopspring/decimal` (its source is not part of the repository).  A decimal
is the number `value * 10 ^ exp` with an arbitrary-precision `value`.  The library keeps
`exp` in an `int32`: `NewFromString` below reports an error for a written exponent
outside that range.  A text without a written exponent leaves the range only with more
than 2^31 digits after the point; like the lengths of Go strings, that is not bounded
here. -/
structure Decimal where
  value : Int
  exp : Int
deriving DecidableEq, Repr

/-- Modelled from the spec: `decimal.Zero`, also the zero-valued `Decimal{}` that
`NewFromString` returns next to an error. -/
def Decimal.Zero : Decimal := ⟨0, 0⟩

/-- The text before the first `E` or `e` of a decimal text, and the text after it when
there is one (`strings.IndexAny(value, "Ee")`). -/
def splitExponent : GoString → GoString × Option GoString
  | [] => ([], none)
  | c :: cs =>
    if c = 'E' ∨ c = 'e' then ([], some cs)
    else ((c :: (splitExponent cs).1), (splitExponent cs).2)

/-- The text before the first `.` and the text after it when there is one. -/
def splitPoint : GoString → GoString × Option GoString
  | [] => ([], none)
  | c :: cs =>
    if c = '.' then ([], some cs)
    else ((c :: (splitPoint cs).1), (splitPoint cs).2)

/-- Go `strconv.ParseInt(s, 10, 32)`: `none` stands for a returned error, for a text
that is not an integer or for an integer outside the range of `int32`. -/
def parseInt32 (s : GoString) : Option Int :=
  match parseInt s with
  | none => none
  | some n => if -2147483648 ≤ n ∧ n ≤ 2147483647 then some n else none

/-- Modelled from the spec: `decimal.NewFromString` of the imported decimal package;
`none` stands for a returned error.  The text is `digits`, with an optional sign, at
most one `.` and an optional exponent `e±n` that fits an `int32`; the digits with the
point removed are the value and the exponent is the written exponent less the number of
digits after the point, which has to fit an `int32` again. -/
def NewFromString (value : GoString) : Option Decimal :=
  let mantissa := (splitExponent value).1
  let written : Option Int :=
    match (splitExponent value).2 with
    | none => some 0
    | some e => parseInt32 e
  match written with
  | none => none
  | some expInt =>
    if mantissa.count '.' > 1 then none
    else
      let intString : GoString :=
        match (splitPoint mantissa).2 with
        | none => mantissa
        | some frac => (splitPoint mantissa).1 ++ frac
      let exp : Int :=
        match (splitPoint mantissa).2 with
        | none => expInt
        | some frac => expInt - (frac.length : Int)
      match parseInt intString with
      | none => none
      | some dValue =>
        if (splitExponent value).2 ≠ none ∧ (exp < -2147483648 ∨ exp > 2147483647) then none
        else some ⟨dValue, exp⟩

/-- Modelled from the spec: `Decimal.rescale` of the decimal package: the same number
written with exponent `exp` (digits are cut off when `exp` is larger). -/
def Decimal.rescale (d : Decimal) (exp : Int) : Decimal :=
  if d.exp = exp then d
  else if exp > d.exp then ⟨Int.tdiv d.value (10 ^ (exp - d.exp).toNat), exp⟩
  else ⟨d.value * 10 ^ (d.exp - exp).toNat, exp⟩

/-- Modelled from the spec: `Decimal.Add` of the decimal package: both numbers are
rescaled to the smaller exponent and the values are added. -/
def Decimal.Add (d d2 : Decimal) : Decimal :=
  let baseScale := min d.exp d2.exp
  ⟨(d.rescale baseScale).value + (d2.rescale baseScale).value, baseScale⟩

/-- The decimal text of a natural number (`big.Int.String` on a non-negative value):
the digits that `Nat.repr` prints. -/
def natString (n : Nat) : GoString := Nat.toDigits 10 n

/-- The decimal text of an integer (`big.Int.String`). -/
def intString (v : Int) : GoString :=
  if v < 0 then '-' :: natString v.natAbs else natString v.natAbs

/-- A text without its trailing `0` bytes. -/
def trimZeros (s : GoString) : GoString :=
  (s.reverse.dropWhile (fun c => c == '0')).reverse

/-- Modelled from the spec: `Decimal.String` of the decimal package, the canonical
decimal text: no exponent, no trailing zero after the point, no point when nothing
follows it. -/
def Decimal.String (d : Decimal) : GoString :=
  if d.exp ≥ 0 then intString (d.rescale 0).value
  else
    let str := natString d.value.natAbs
    let k := (-d.exp).toNat
    let intPart := if str.length > k then str.take (str.length - k) else ['0']
    let fractionalPart :=
      trimZeros (if str.length > k then str.drop (str.length - k)
        else List.replicate (k - str.length) '0' ++ str)
    let number := if fractionalPart.length > 0 then intPart ++ '.' :: fractionalPart else intPart
    if d.value < 0 then '-' :: number else number

/-! ## The built-in functions -/

/-- Go `getColumnIndex`: `int(letter[0] - 'A')`, a byte subtraction. -/
def getColumnIndex (letter : GoString) : Option Int :=
  match letter with
  | [] => none
  | c :: _ => some ((byteSub c 65).toNat : Int)

/-- The loop of `evaluateConcat`: `result` is the text gathered so far. -/
def concatLoop : List GoString → GoString → Option GoString
  | [], result => some (('"' :: removeByte result '"') ++ ['"'])
  | parameter :: rest, result =>
    if parameter = errorValue then some errorValue
    else if !hasPrefix parameter ['"'] || !hasSuffix parameter ['"'] then
      some cannotConcatenate
    else
      match slice parameter 1 ((parameter.length : Int) - 1) with
      | none => none
      | some inner => concatLoop rest (result ++ inner)

/-- Go `evaluateConcat`; `none` stands for a panic. -/
def evaluateConcat (parameters : List GoString) : Option GoString :=
  concatLoop parameters []

/-- Go `evaluateSplit`; `none` stands for a panic. -/
def evaluateSplit (parameters : List GoString) : Option GoString :=
  if parameters.any (fun parameter => parameter == errorValue) then some errorValue
  else
    match (if (2 : Int) ≤ parameters.length then some (parameters.take (parameters.length - 2))
           else none) with
    | none => none
    | some front => some (join front [','])

/-- The loop of `evaluateSum`: `result` is the sum so far. -/
def sumLoop : List GoString → Decimal → GoString
  | [], result => result.String
  | parameter :: rest, result =>
    if parameter = errorValue then errorValue
    else sumLoop rest (result.Add ((NewFromString parameter).getD Decimal.Zero))

/-- Go `evaluateSum`. -/
def evaluateSum (parameters : List GoString) : GoString :=
  sumLoop parameters Decimal.Zero

/-! ## `evaluateEquation` -/

/-- Go `table[row][column]`; `none` stands for the index-out-of-range panic. -/
def cellAt (table : Table) (row column : Int) : Option Cell :=
  match index table row with
  | none => none
  | some cells => index cells column

/-- What `evaluateEquation` returns: the terms and the error string. -/
abbrev Evaluation := List GoString × GoString

/-- The local variables of `evaluateEquation`. -/
structure Scan where
  stack : GoString
  parentheses : Int
  quote : Bool
  results : List GoString
deriving DecidableEq, Repr

/-- How one pass through the body of the scanning loop ends. -/
inductive Step where
  /-- the loop goes on (also after `continue`) with these variables -/
  | next (s : Scan)
  /-- a `return` statement inside the loop -/
  | ret (r : Evaluation)
  /-- a run-time panic -/
  | panic
  /-- the recursion budget was used up in a nested call -/
  | timeout
deriving DecidableEq, Repr

/-- The text `strings.Join(evaluateEquation(...))` appends to the stack: the call's two
results are the two arguments of `Join`, so the terms are joined with the error string
as the separator. -/
def joinCall (r : Outcome Evaluation) (s : Scan) (stack : GoString) : Step :=
  match r with
  | .done (terms, err) => .next { s with stack := stack ++ join terms err }
  | .panic => .panic
  | .timeout => .timeout

/-- The dispatch on the function name in front of a closed parenthesis (lines 126-144):
`stack` is the text before the `(` and `evaluationResults` the terms inside. -/
def applyFunction (stack : GoString) (evaluationResults : List GoString) :
    Option GoString :=
  if hasSuffix stack CONCAT then
    match evaluateConcat evaluationResults with
    | none => none
    | some v => some (stack.take (stack.length - CONCAT.length) ++ v)
  else if hasSuffix stack TEXT then
    match index evaluationResults 0 with
    | none => none
    | some v => some (stack.take (stack.length - TEXT.length) ++ ('"' :: v) ++ ['"'])
  else if hasSuffix stack INC_FROM then
    match index evaluationResults 0 with
    | none => none
    | some v => some (stack.take (stack.length - INC_FROM.length) ++ v)
  else if hasSuffix stack SUM then
    some (stack.take (stack.length - SUM.length) ++ evaluateSum evaluationResults)
  else if hasSuffix stack SPREAD then
    some (stack.take (stack.length - SPREAD.length) ++ join evaluationResults [','])
  else if hasSuffix stack SPLIT then
    match evaluateSplit evaluationResults with
    | none => none
    | some v => some (stack.take (stack.length - SPLIT.length) ++ v)
  else some stack

/-- The body of the scanning loop of `evaluateEquation` (lines 114-170) at the byte `c`
of the equation; `before` is the byte `equation[i-1]` when there is one and `eval` is
the recursive call of `evaluateEquation`. -/
def scanStep (eval : GoString → Int → Int → Outcome Evaluation) (table : Table)
    (row column : Int) (before : Option Char) (c : Char) (s : Scan) : Step :=
  let stack := s.stack ++ byteString c
  if c = '(' ∧ s.quote = false then
    .next { s with stack := stack, parentheses := s.parentheses + 1 }
  else if c = ')' ∧ s.quote = false then
    let parentheses := s.parentheses - 1
    if parentheses = 0 then
      match slice stack (indexByte stack '(' + 1) ((stack.length : Int) - 1) with
      | none => .panic
      | some inner =>
        match eval inner row column with
        | .panic => .panic
        | .timeout => .timeout
        | .done (evaluationResults, err) =>
          if err = errorValue then .ret ([], errorValue)
          else
            match slice stack 0 (indexByte stack '(') with
            | none => .panic
            | some front =>
              match applyFunction front evaluationResults with
              | none => .panic
              | some stack2 => .next { s with stack := stack2, parentheses := parentheses }
    else if parentheses < 0 then .ret ([], errorValue)
    else .next { s with stack := stack, parentheses := parentheses }
  else if c = '"' then
    .next { s with stack := stack, quote := !s.quote }
  else if c = ' ' ∧ s.quote = false then
    .next { s with stack := stack.take (stack.length - 1) }
  else if s.parentheses = 0 ∧ c = ',' ∧ s.quote = false then
    .next { s with results := s.results ++ [stack.take (stack.length - 1)],
                   stack := [], quote := false }
  else if isDigit c = true ∧ s.quote = false ∧ stack.length > 1 then
    match before with
    | none => .panic
    | some letter =>
      if isLetter letter then
        let referenceRow := atoi (byteString (byteSub c 1))
        match getColumnIndex (byteString letter) with
        | none => .panic
        | some referenceColumn =>
          match cellAt table referenceRow referenceColumn with
          | none => .panic
          | some cell =>
            joinCall (eval cell.equation referenceRow referenceColumn) s
              (stack.take (stack.length - 2))
      else .next { s with stack := stack }
  else if hasSuffix stack FORMULA_COPY then
    match cellAt table (row - 1) column with
    | none => .panic
    | some cell =>
      joinCall (eval cell.equation (row - 1) column) s
        (stack.take (stack.length - FORMULA_COPY.length))
  else .next { s with stack := stack }

/-- The scanning loop `for i := 0; i < len(equation); i++` over the bytes that are
left; `before` is the byte just passed. -/
def scanLoop (eval : GoString → Int → Int → Outcome Evaluation) (table : Table)
    (row column : Int) : Option Char → GoString → Scan → Step
  | _, [], s => .next s
  | before, c :: rest, s =>
    match scanStep eval table row column before c s with
    | .next s2 => scanLoop eval table row column (some c) rest s2
    | other => other

/-- The second loop (lines 173-183), which cuts the stack at commas; `i` is the loop
index.  After a cut the index is set to `0` and the `i++` of the loop makes it `1`.
Every pass raises `i` or shortens the stack, so `fuel = len(stack) + 1` passes are
enough (`splitLoop_fuel`). -/
def splitLoop : Nat → Nat → Scan → Scan
  | 0, _, s => s
  | fuel + 1, i, s =>
    match s.stack[i]? with
    | none => s
    | some c =>
      if s.parentheses = 0 ∧ c = ',' ∧ s.quote = false then
        splitLoop fuel 1 { s with results := s.results ++ [s.stack.take i],
                                  stack := s.stack.drop (i + 1), quote := false }
      else splitLoop fuel (i + 1) s

/-- The end of `evaluateEquation` (lines 173-193): the second loop and the last term. -/
def finish (s : Scan) : List GoString :=
  let s2 := if s.stack.length > 0 then splitLoop (s.stack.length + 1) 0 s else s
  if s2.results.length = 0 ∧ s2.stack ≠ [] then s2.results ++ [s2.stack]
  else if s2.stack ≠ [] then s2.results ++ [s2.stack]
  else if s2.results.length = 0 then s2.results ++ [[]]
  else s2.results

/-- Go `evaluateEquation(equation, row, column)` on the table `table`, with a budget
of `fuel` nested calls. -/
def evaluateEquation : Nat → Table → GoString → Int → Int → Outcome Evaluation
  | 0, _, _, _, _ => .timeout
  | fuel + 1, table, equation, row, column =>
    match cellAt table row column with
    | none => .panic
    | some cell =>
      if cell.evaluated = true ∨ cell.equation = [] then .done ([cell.value], [])
      else
        match scanLoop (evaluateEquation fuel table) table row column none equation
            ⟨[], 0, false, []⟩ with
        | .next s => .done (finish s, [])
        | .ret r => .done r
        | .panic => .panic
        | .timeout => .timeout

/-! ## `evaluateTable` -/

/-- The assignment to the fields of `table[i][j]`. -/
def setCell (table : Table) (i j : Nat) (f : Cell → Cell) : Table :=
  match table[i]? with
  | none => table
  | some cells =>
    match cells[j]? with
    | none => table
    | some cell => table.set i (cells.set j (f cell))

/-- The body of the inner loop of `evaluateTable` at `table[i][j]`. -/
def evaluateCell (fuel : Nat) (table : Table) (i j : Nat) : Outcome Table :=
  match cellAt table i j with
  | none => .panic
  | some cell =>
    if cell.equation ≠ [] then
      match evaluateEquation fuel table cell.equation i j with
      | .panic => .panic
      | .timeout => .timeout
      | .done (value, err) =>
        if err = errorValue then
          .done (setCell table i j (fun c => { c with evaluated := true, value := errorValue }))
        else
          match index value 0 with
          | none => .panic
          | some v =>
            .done (setCell table i j (fun c => { c with evaluated := true, value := v }))
    else .done (setCell table i j (fun c => { c with evaluated := true }))

/-- The inner loop `for j := range table[i]` over the columns that are left. -/
def evaluateRow (fuel : Nat) (i : Nat) : List Nat → Table → Outcome Table
  | [], table => .done table
  | j :: js, table =>
    match evaluateCell fuel table i j with
    | .done table2 => evaluateRow fuel i js table2
    | other => other

/-- The outer loop `for i := range table` over the rows that are left. -/
def evaluateRows (fuel : Nat) : List Nat → Table → Outcome Table
  | [], table => .done table
  | i :: is, table =>
    match evaluateRow fuel i (List.range (table.getD i []).length) table with
    | .done table2 => evaluateRows fuel is table2
    | other => other

/-- Go `evaluateTable()`: the table after the call.  Every call of `evaluateEquation`
gets the budget `fuel`. -/
def evaluateTable (fuel : Nat) (table : Table) : Outcome Table :=
  evaluateRows fuel (List.range table.length) table

/-! ## Vocabulary of the claims -/

/-- Whether a text is a string literal: two bytes or more, the first and the last a
double quote. -/
def isStringLiteral (s : GoString) : Bool :=
  decide (2 ≤ s.length) && hasPrefix s ['"'] && hasSuffix s ['"']

/-- The text between the first and the last byte of a text. -/
def interior (s : GoString) : GoString := (s.drop 1).dropLast

/-- A text of decimal digits, one or more. -/
def isDigits (s : GoString) : Bool := !s.isEmpty && s.all isDigit

/-- The number written by a text of decimal digits. -/
def digitsValue (s : GoString) : Nat := s.foldl (fun n c => n * 10 + digitValue c) 0

/-- The text with every space outside the double-quoted strings removed; `quote` tells
whether the text starts inside a double-quoted string. -/
def stripSpaces : Bool → GoString → GoString
  | _, [] => []
  | quote, c :: cs =>
    if c = '"' then c :: stripSpaces (!quote) cs
    else if c = ' ' ∧ quote = false then stripSpaces quote cs
    else c :: stripSpaces quote cs

/-- Whether the text holds a digit outside the double-quoted strings that follows a
letter with one space or more (outside the strings) and nothing else in between, as in
`A 1`.  `quote` tells whether the text starts inside a string, `kept` is the last byte
passed that `stripSpaces` keeps and `gap` tells whether a space was dropped after it. -/
def spacedReference : Bool → Option Char → Bool → GoString → Bool
  | _, _, _, [] => false
  | quote, kept, gap, c :: cs =>
    if c = '"' then spacedReference (!quote) (some c) false cs
    else if c = ' ' ∧ quote = false then spacedReference quote kept true cs
    else if isDigit c = true ∧ quote = false ∧ gap = true ∧ (kept.map isLetter) = some true then
      true
    else spacedReference quote (some c) false cs

/-- A text without its sign: the text after a leading `+` or `-`. -/
def unsignedPart (s : GoString) : GoString :=
  match s with
  | [] => []
  | c :: cs => if c = '+' ∨ c = '-' then cs else c :: cs

/-- Whether a text is a valid decimal literal: an optional sign, digits (one or more)
and an optional fractional part (a point and one digit or more). -/
def isDecimalLiteral (s : GoString) : Bool :=
  isDigits (splitPoint (unsignedPart s)).1 &&
    (match (splitPoint (unsignedPart s)).2 with
     | none => true
     | some fraction => isDigits fraction)

/-- The rational number written by an unsigned decimal text `digits` or
`digits.digits`. -/
def unsignedValue (s : GoString) : ℚ :=
  match (splitPoint s).2 with
  | none => (digitsValue (splitPoint s).1 : ℚ)
  | some fraction =>
    (digitsValue (splitPoint s).1 : ℚ) + (digitsValue fraction : ℚ) / 10 ^ fraction.length

/-- The rational number written by a decimal literal. -/
def literalValue (s : GoString) : ℚ :=
  if s.head? = some '-' then - unsignedValue (unsignedPart s) else unsignedValue (unsignedPart s)

/-- Whether a text is a canonical decimal text: digits with no leading zero (a single
`0` apart), then possibly a point and digits the last of which is not `0`, with a `-`
in front of a negative number only (no `+`, no `-0`). -/
def isCanonical (s : GoString) : Bool :=
  isDecimalLiteral s && s.head? != some '+' && s != "-0".toList &&
    ((splitPoint (unsignedPart s)).1 == ['0'] || (splitPoint (unsignedPart s)).1.head? != some '0') &&
    (match (splitPoint (unsignedPart s)).2 with
     | none => true
     | some fraction => fraction.getLast? != some '0')

/-- A byte that a decimal text can hold: a digit, a sign, the point, `e` or `E`. -/
def isNumberByte (c : Char) : Bool :=
  isDigit c || c == '+' || c == '-' || c == '.' || c == 'e' || c == 'E'

/-- Whether a text holds a byte that no decimal text holds. -/
def hasForeignByte (s : GoString) : Bool := s.any (fun c => !isNumberByte c)

/-- The number an argument of `SUM` stands for: the value of a decimal literal, and zero
for any other text. -/
def argumentValue (s : GoString) : ℚ := if isDecimalLiteral s then literalValue s else 0

/-! ## Tables of the examples -/

/-- The table read from the line `2|3|=sum(A1, B1)`. -/
def sumTable : Table :=
  [[⟨"2".toList, [], 0, 0, false⟩, ⟨"3".toList, [], 1, 0, false⟩,
    ⟨[], "sum(A1, B1)".toList, 2, 0, false⟩]]

/-- The table read from the line `=spread(1,2,3)`. -/
def spreadTable : Table :=
  [[⟨[], "spread(1,2,3)".toList, 0, 0, false⟩]]

/-- A one-row table: the formula cell `"a,b"` (with its quotes). -/
def quotedCommaTable : Table :=
  [[⟨[], "\"a,b\"".toList, 0, 0, false⟩]]

/-- The table read from the line `7|=A 1`. -/
def spacedReferenceTable : Table :=
  [[⟨"7".toList, [], 0, 0, false⟩, ⟨[], "A 1".toList, 1, 0, false⟩]]

/-- The table read from the line `=sum( 1 , 2 )`. -/
def spacedSumTable : Table :=
  [[⟨[], "sum( 1 , 2 )".toList, 0, 0, false⟩]]

/-- The table read from the line `=B1|=)`. -/
def forwardErrorTable : Table :=
  [[⟨[], "B1".toList, 0, 0, false⟩, ⟨[], ")".toList, 1, 0, false⟩]]

/-- The table of the line `=)|=text(A1)` once `evaluateTable` has dealt with `A1`. -/
def textOfErrorTable : Table :=
  [[⟨"#ERROR".toList, ")".toList, 0, 0, true⟩, ⟨[], "text(A1)".toList, 1, 0, false⟩]]

/-- The table read from the line `=B1|=A1`. -/
def cycleTable : Table :=
  [[⟨[], "B1".toList, 0, 0, false⟩, ⟨[], "A1".toList, 1, 0, false⟩]]

/-- The table read from the line `=^^`. -/
def copyTopTable : Table :=
  [[⟨[], "^^".toList, 0, 0, false⟩]]

/-- A one-cell table: an unevaluated formula cell. -/
def formulaTable : Table :=
  [[⟨[], "x".toList, 0, 0, false⟩]]

/-- The table read from the lines `7` and `=^^`. -/
def copyTable : Table :=
  [[⟨"7".toList, [], 0, 0, false⟩], [⟨[], "^^".toList, 0, 1, false⟩]]

/-- The table read from the lines `1|`, `2|=sum(A1,A2)` and `3|=^^`. -/
def copySumTable : Table :=
  [[⟨"1".toList, [], 0, 0, false⟩, ⟨[], [], 1, 0, false⟩],
   [⟨"2".toList, [], 0, 1, false⟩, ⟨[], "sum(A1,A2)".toList, 1, 1, false⟩],
   [⟨"3".toList, [], 0, 2, false⟩, ⟨[], "^^".toList, 1, 2, false⟩]]

/-- The table read from the line `=foo(1,2)`. -/
def unknownTable : Table :=
  [[⟨[], "foo(1,2)".toList, 0, 0, false⟩]]

/-- The table read from the line `=sum(1`. -/
def unclosedTable : Table :=
  [[⟨[], "sum(1".toList, 0, 0, false⟩]]

/-- The table read from the line `=sum(1))`. -/
def overclosedTable : Table :=
  [[⟨[], "sum(1))".toList, 0, 0, false⟩]]

/-- The table of the lines `1|`, `2|=sum(A1,A2)` and `3|=^^` when `evaluateTable` reaches
the cell `B3`: the cells of the first two lines are evaluated. -/
def copySumReachedTable : Table :=
  [[⟨"1".toList, [], 0, 0, true⟩, ⟨[], [], 1, 0, true⟩],
   [⟨"2".toList, [], 0, 1, true⟩, ⟨"3".toList, "sum(A1,A2)".toList, 1, 1, true⟩],
   [⟨"3".toList, [], 0, 2, true⟩, ⟨[], "^^".toList, 1, 2, false⟩]]

/-! ## Auxiliary definitions of the proofs -/

/-- The byte `equation[i-1]` once the bytes `xs` have been passed, when it was `before`
in front of them. -/
def lastBefore (before : Option Char) (xs : GoString) : Option Char :=
  match xs.getLast? with
  | some c => some c
  | none => before

/-- A byte that the scanning loop only appends at the depth `parentheses`. -/
def inertByte (parentheses : Int) (c : Char) : Prop :=
  isDigit c = true ∨ (c = ',' ∧ parentheses ≠ 0)

/-- The rational number a decimal stands for. -/
def Decimal.toRat (d : Decimal) : ℚ := (d.value : ℚ) * (10 : ℚ) ^ d.exp

/-- The text of a decimal literal: a sign, the digits before the point, and the digits
after the point when there is one. -/
def literalText (sign ip : GoString) (fpo : Option GoString) : GoString :=
  sign ++ (ip ++ (match fpo with
    | none => []
    | some fp => '.' :: fp))

/-- The digits after the point of a literal. -/
def fractionDigits (fpo : Option GoString) : GoString := fpo.getD []

/-- The digits before the point in the text of `n / 10 ^ k`. -/
def integerDigits (n k : Nat) : GoString :=
  if (Nat.toDigits 10 n).length > k then
    (Nat.toDigits 10 n).take ((Nat.toDigits 10 n).length - k)
  else ['0']

/-- The `k` digits after the point in the text of `n / 10 ^ k`, trailing zeros included. -/
def rawFraction (n k : Nat) : GoString :=
  if (Nat.toDigits 10 n).length > k then
    (Nat.toDigits 10 n).drop ((Nat.toDigits 10 n).length - k)
  else List.replicate (k - (Nat.toDigits 10 n).length) '0' ++ Nat.toDigits 10 n

/-- The digits after the point in the text of `n / 10 ^ k`, when some are left once the
trailing zeros are gone. -/
def fractionOption (n k : Nat) : Option GoString :=
  if (trimZeros (rawFraction n k)).length > 0 then some (trimZeros (rawFraction n k)) else none

/-- The number an argument counts for in `evaluateSum`: its value when
`decimal.NewFromString` accepts it and zero when it reports an error. -/
def parsedValue (parameter : GoString) : ℚ :=
  match NewFromString parameter with
  | some d => d.toRat
  | none => 0

/-- Whether the table has a cell at a place and that cell is marked evaluated. -/
def evaluatedAt (table : Table) (i j : Nat) : Bool :=
  match cellAt table i j with
  | some cell => cell.evaluated
  | none => false

/-- A byte of a function name: an ASCII byte that is not a parenthesis, a double quote,
a space, a comma, the byte `^` or a decimal digit. -/
def isNameByte (c : Char) : Bool :=
  decide (c.toNat < 128) && !isDigit c && decide (c ≠ '(') && decide (c ≠ ')') &&
    decide (c ≠ '"') && decide (c ≠ ' ') && decide (c ≠ ',') && decide (c ≠ '^')

/-- Whether a text ends with one of the six function names `evaluateEquation` knows. -/
def endsWithFunction (stack : GoString) : Bool :=
  hasSuffix stack CONCAT || hasSuffix stack TEXT || hasSuffix stack INC_FROM ||
    hasSuffix stack SUM || hasSuffix stack SPREAD || hasSuffix stack SPLIT

/-! ## Lemmas -/

/-! ### `evaluateConcat` and `evaluateSum` on error values -/

theorem join_nil_cons (x : GoString) (xs : List GoString) :
    join (x :: xs) [] = x ++ join xs [] := by
  cases xs <;> simp [join]

theorem slice_interior (p : GoString) (h : 2 ≤ p.length) :
    slice p 1 ((p.length : Int) - 1) = some (interior p) := by
  unfold slice interior
  have h1 : (0:Int) ≤ 1 ∧ (1:Int) ≤ (p.length : Int) - 1 ∧
      (p.length : Int) - 1 ≤ p.length := by omega
  rw [if_pos h1]
  have h2 : ((p.length : Int) - 1).toNat = p.length - 1 := by omega
  rw [h2]
  simp [List.dropLast_eq_take, List.drop_take]

theorem join_empty (xs : List GoString) : join xs [] = xs.flatten := by
  induction xs with
  | nil => rfl
  | cons x xs ih =>
    cases xs with
    | nil => simp [join]
    | cons y ys =>
      rw [join, ih]
      simp

theorem removeByte_eq (s : GoString) (c : Char) :
    removeByte s c = s.filter (fun x => x != c) := rfl

/-- The loop of `evaluateConcat` on arguments that are string literals or visibly not
quoted. -/
theorem concatLoop_spec (parameters : List GoString) (result : GoString)
    (hne : errorValue ∉ parameters)
    (hshape : ∀ p ∈ parameters, isStringLiteral p = true ∨
      ¬ (hasPrefix p ['"'] = true ∧ hasSuffix p ['"'] = true)) :
    concatLoop parameters result =
      some (if parameters.all isStringLiteral = true then
          ('"' :: removeByte (result ++ join (parameters.map interior) []) '"') ++ ['"']
        else cannotConcatenate) := by
  induction parameters generalizing result with
  | nil => simp [concatLoop, join]
  | cons p ps ih =>
    have hp : p ≠ errorValue := fun h => hne (by simp [h])
    have hps : errorValue ∉ ps := fun h => hne (List.mem_cons_of_mem _ h)
    unfold concatLoop
    rw [if_neg hp]
    rcases hshape p (List.mem_cons_self _ _) with hl | hn
    · have hl2 := hl
      simp only [isStringLiteral, Bool.and_eq_true, decide_eq_true_eq] at hl2
      obtain ⟨⟨hlen, hpre⟩, hsuf⟩ := hl2
      simp only [hpre, hsuf, Bool.not_true, Bool.or_self, Bool.false_eq_true, if_false]
      rw [slice_interior p hlen]
      simp only
      rw [ih _ hps (fun q hq => hshape q (List.mem_cons_of_mem _ hq))]
      simp only [List.all_cons, hl, Bool.true_and, List.map_cons, join_nil_cons,
        List.append_assoc]
    · have hnl : isStringLiteral p = false := by
        cases h : isStringLiteral p
        · rfl
        · exfalso
          simp only [isStringLiteral, Bool.and_eq_true, decide_eq_true_eq] at h
          exact hn ⟨h.1.2, h.2⟩
      have hc : (!hasPrefix p ['"'] || !hasSuffix p ['"']) = true := by
        cases h1 : hasPrefix p ['"'] <;> cases h2 : hasSuffix p ['"'] <;> simp_all
      rw [if_pos hc]
      simp [hnl]

/-- The loop of `evaluateSum` stops at an argument `"#ERROR"`. -/
theorem sumLoop_error (parameters : List GoString) (d : Decimal)
    (h : errorValue ∈ parameters) : sumLoop parameters d = errorValue := by
  induction parameters generalizing d with
  | nil => simp at h
  | cons p ps ih =>
    unfold sumLoop
    by_cases hp : p = errorValue
    · simp [hp]
    · simp only [if_neg hp]
      apply ih
      rcases List.mem_cons.mp h with h | h
      · exact absurd h.symm hp
      · exact h

/-! ### The scanning loop on digits and commas -/

theorem isDigit_facts {c : Char} (h : isDigit c = true) :
    c ≠ '(' ∧ c ≠ ')' ∧ c ≠ '"' ∧ c ≠ ' ' ∧ c ≠ ',' ∧ c ≠ '^' ∧ isLetter c = false ∧
      byteString c = [c] := by
  simp only [isDigit, Bool.and_eq_true, decide_eq_true_eq] at h
  refine ⟨?_, ?_, ?_, ?_, ?_, ?_, ?_, ?_⟩
  · rintro rfl; revert h; decide
  · rintro rfl; revert h; decide
  · rintro rfl; revert h; decide
  · rintro rfl; revert h; decide
  · rintro rfl; revert h; decide
  · rintro rfl; revert h; decide
  · simp only [isLetter, Bool.or_eq_false_iff, Bool.and_eq_false_iff, decide_eq_false_iff_not,
      beq_eq_false_iff_ne]
    omega
  · have : c.toNat < 128 := by omega
    simp [byteString, this]

theorem hasSuffix_snoc {xs : GoString} {c a b : Char} (h : hasSuffix (xs ++ [c]) [a, b] = true) :
    c = b := by
  simp only [hasSuffix, List.isSuffixOf_iff_suffix] at h
  obtain ⟨t, ht⟩ := h
  have := congrArg List.getLast? ht
  simp at this
  exact this.symm

theorem hasSuffix_copy_snoc (xs : GoString) {c : Char} (hc : c ≠ '^') :
    hasSuffix (xs ++ [c]) FORMULA_COPY = false := by
  cases h : hasSuffix (xs ++ [c]) FORMULA_COPY
  · rfl
  · exact absurd (hasSuffix_snoc h) hc

theorem scanStep_digit (eval : GoString → Int → Int → Outcome Evaluation) (table : Table)
    (row column : Int) (before : Option Char) (c : Char) (s : Scan)
    (hc : isDigit c = true) (hq : s.quote = false)
    (hb : s.stack = [] ∨ ∃ p, before = some p ∧ isLetter p = false) :
    scanStep eval table row column before c s = .next { s with stack := s.stack ++ [c] } := by
  obtain ⟨h1, h2, h3, h4, h5, h6, _, h8⟩ := isDigit_facts hc
  have hcopy := hasSuffix_copy_snoc s.stack h6
  unfold scanStep
  rw [h8]
  simp only [h1, h2, h3, h4, h5, false_and, and_false, if_false, hc, hq, true_and, hcopy,
    Bool.false_eq_true]
  split_ifs with hlen
  · rcases hb with hb | ⟨p, hp, hl⟩
    · simp [hb] at hlen
    · simp only [hp, hl, Bool.false_eq_true, if_false]
  · rfl

theorem lastBefore_cons (before : Option Char) (x : Char) (xs : GoString) :
    lastBefore (some x) xs = lastBefore before (x :: xs) := by
  cases xs with
  | nil => simp [lastBefore]
  | cons y ys =>
    simp only [lastBefore, List.getLast?_cons_cons]
    cases h : (y :: ys).getLast? with
    | none => simp at h
    | some z => rfl

theorem scanStep_comma_inner (eval : GoString → Int → Int → Outcome Evaluation)
    (table : Table) (row column : Int) (before : Option Char) (s : Scan)
    (hp : s.parentheses ≠ 0) (hq : s.quote = false) :
    scanStep eval table row column before ',' s = .next { s with stack := s.stack ++ [','] } := by
  have hcopy := hasSuffix_copy_snoc s.stack (show ',' ≠ '^' from by decide)
  unfold scanStep
  have hb : byteString ',' = [','] := by decide
  have hd : isDigit ',' = false := by decide
  rw [hb]
  simp only [hp, hq, hd, hcopy, false_and, and_false, if_false, Bool.false_eq_true,
    show ¬ (',' = '(') from by decide, show ¬ (',' = ')') from by decide,
    show ¬ (',' = '"') from by decide, show ¬ (',' = ' ') from by decide]

theorem scanStep_comma_top (eval : GoString → Int → Int → Outcome Evaluation)
    (table : Table) (row column : Int) (before : Option Char) (s : Scan)
    (hp : s.parentheses = 0) (hq : s.quote = false) :
    scanStep eval table row column before ',' s =
      .next { s with results := s.results ++ [s.stack], stack := [] } := by
  unfold scanStep
  have hb : byteString ',' = [','] := by decide
  rw [hb]
  simp only [hp, hq, false_and, and_false, if_false, true_and, and_true, if_true,
    show ¬ (',' = '(') from by decide, show ¬ (',' = ')') from by decide,
    show ¬ (',' = '"') from by decide, show ¬ (',' = ' ') from by decide]
  simp

theorem scanStep_inert (eval : GoString → Int → Int → Outcome Evaluation) (table : Table)
    (row column : Int) (before : Option Char) (c : Char) (s : Scan)
    (hc : inertByte s.parentheses c) (hq : s.quote = false)
    (hb : s.stack = [] ∨ ∃ p, before = some p ∧ isLetter p = false) :
    scanStep eval table row column before c s = .next { s with stack := s.stack ++ [c] } := by
  rcases hc with hc | ⟨rfl, hp⟩
  · exact scanStep_digit eval table row column before c s hc hq hb
  · exact scanStep_comma_inner eval table row column before s hp hq

theorem inertByte_not_letter {n : Int} {c : Char} (h : inertByte n c) : isLetter c = false := by
  rcases h with h | ⟨rfl, _⟩
  · exact (isDigit_facts h).2.2.2.2.2.2.1
  · decide

theorem scanLoop_inert (eval : GoString → Int → Int → Outcome Evaluation) (table : Table)
    (row column : Int) (xs rest : GoString) :
    ∀ (before : Option Char) (s : Scan), (∀ c ∈ xs, inertByte s.parentheses c) →
      s.quote = false → (s.stack = [] ∨ ∃ p, before = some p ∧ isLetter p = false) →
      scanLoop eval table row column before (xs ++ rest) s =
        scanLoop eval table row column (lastBefore before xs) rest
          { s with stack := s.stack ++ xs } := by
  induction xs with
  | nil => intro before s _ _ _; simp [lastBefore]
  | cons x xs ih =>
    intro before s hx hq hb
    have hx0 := hx x (List.mem_cons_self _ _)
    rw [List.cons_append, scanLoop, scanStep_inert eval table row column before x s hx0 hq hb]
    simp only
    rw [ih (some x) { s with stack := s.stack ++ [x] }
      (fun c hc => hx c (List.mem_cons_of_mem _ hc)) hq
      (Or.inr ⟨x, rfl, inertByte_not_letter hx0⟩)]
    simp [lastBefore_cons before]

theorem isDigits_inert {t : GoString} (h : isDigits t = true) (n : Int) :
    ∀ c ∈ t, inertByte n c := by
  intro c hc
  simp only [isDigits, Bool.and_eq_true, List.all_eq_true] at h
  exact Or.inl (h.2 c hc)

theorem isDigits_ne_nil {t : GoString} (h : isDigits t = true) : t ≠ [] := by
  rintro rfl; simp [isDigits] at h

theorem isDigits_no_comma {t : GoString} (h : isDigits t = true) : ∀ c ∈ t, c ≠ ',' := by
  intro c hc
  simp only [isDigits, Bool.and_eq_true, List.all_eq_true] at h
  exact (isDigit_facts (h.2 c hc)).2.2.2.2.1

theorem scanLoop_terms (eval : GoString → Int → Int → Outcome Evaluation) (table : Table)
    (row column : Int) (rest : List GoString) :
    ∀ (a : GoString) (before : Option Char) (s : Scan),
      (∀ t ∈ a :: rest, isDigits t = true) →
      s.stack = [] → s.parentheses = 0 → s.quote = false →
      scanLoop eval table row column before (join (a :: rest) [',']) s =
        .next { s with stack := (a :: rest).getLast (List.cons_ne_nil _ _),
                       results := s.results ++ (a :: rest).dropLast } := by
  induction rest with
  | nil =>
    intro a before s ht hs hp hq
    have h := scanLoop_inert eval table row column a [] before s
      (isDigits_inert (ht a (List.mem_cons_self _ _)) _) hq (Or.inl hs)
    rw [List.append_nil] at h
    simp only [join, h, scanLoop, hs, List.nil_append, List.getLast_singleton,
      List.dropLast_single, List.append_nil]
  | cons b rest ih =>
    intro a before s ht hs hp hq
    have h := scanLoop_inert eval table row column a (',' :: join (b :: rest) [',']) before s
      (isDigits_inert (ht a (List.mem_cons_self _ _)) _) hq (Or.inl hs)
    simp only [join, List.append_assoc, List.singleton_append]
    rw [h, scanLoop, scanStep_comma_top eval table row column _
      { s with stack := s.stack ++ a } hp hq]
    simp only
    rw [ih b (some ',') { s with stack := [], results := s.results ++ [s.stack ++ a] }
      (fun t h => ht t (List.mem_cons_of_mem _ h)) rfl hp hq]
    simp [hs, List.getLast_cons]

/-! ### The second loop and the end of `evaluateEquation` -/

theorem splitLoop_nocomma (fuel : Nat) : ∀ (i : Nat) (s : Scan),
    (∀ c ∈ s.stack.drop i, c ≠ ',') → splitLoop fuel i s = s := by
  induction fuel with
  | zero => intro i s _; rfl
  | succ fuel ih =>
    intro i s h
    unfold splitLoop
    cases hi : s.stack[i]? with
    | none => rfl
    | some c =>
      have hlt : i < s.stack.length := by
        by_contra hge
        rw [List.getElem?_eq_none (by omega)] at hi
        exact Option.noConfusion hi
      have hc : c ≠ ',' := by
        apply h
        rw [List.drop_eq_getElem_cons hlt]
        have : s.stack[i] = c := by
          rw [List.getElem?_eq_getElem hlt] at hi
          exact Option.some.inj hi
        simp [this]
      simp only [hc, false_and, and_false, if_false]
      apply ih
      intro d hd
      apply h
      rw [List.drop_eq_getElem_cons hlt]
      exact List.mem_cons_of_mem _ (by simpa using hd)

theorem splitLoop_term (a tail : GoString) (k : Nat) (ha : ∀ c ∈ a, c ≠ ',') :
    ∀ (n i : Nat) (s : Scan), i + n = a.length → s.stack = a ++ ',' :: tail →
      s.parentheses = 0 → s.quote = false →
      splitLoop (n + 1 + k) i s =
        splitLoop k 1 { s with results := s.results ++ [a], stack := tail } := by
  intro n
  induction n with
  | zero =>
    intro i s hi hs hp hq
    have hi2 : i = a.length := by omega
    have hget : s.stack[i]? = some ',' := by
      rw [hs, hi2, List.getElem?_append_right (le_refl _)]; simp
    rw [show 0 + 1 + k = k + 1 from by omega, splitLoop, hget]
    simp only [hp, hq, and_self, if_true]
    congr 1
    rw [hs, hi2]
    simp
  | succ n ih =>
    intro i s hi hs hp hq
    have hlt : i < a.length := by omega
    have hget : s.stack[i]? = some a[i] := by
      rw [hs, List.getElem?_append_left hlt, List.getElem?_eq_getElem hlt]
    have hne : a[i] ≠ ',' := ha _ (List.getElem_mem _)
    rw [show n + 1 + 1 + k = (n + 1 + k) + 1 from by omega, splitLoop, hget]
    simp only [hne, false_and, and_false, if_false]
    exact ih (i + 1) s (by omega) hs hp hq

theorem join_length_pos {a : GoString} (rest : List GoString) (sep : GoString) (h : a ≠ []) :
    0 < (join (a :: rest) sep).length := by
  cases rest with
  | nil => simpa [join] using List.length_pos.mpr h
  | cons b rest =>
    simp only [join, List.length_append]
    have := List.length_pos.mpr h
    omega

theorem splitLoop_join (rest : List GoString) :
    ∀ (a : GoString) (fuel i : Nat) (s : Scan),
      (∀ t ∈ a :: rest, isDigits t = true) → i ≤ 1 →
      s.stack = join (a :: rest) [','] → s.parentheses = 0 → s.quote = false →
      s.stack.length + 1 ≤ fuel + i →
      splitLoop fuel i s =
        { s with stack := (a :: rest).getLast (List.cons_ne_nil _ _),
                 results := s.results ++ (a :: rest).dropLast } := by
  induction rest with
  | nil =>
    intro a fuel i s ht hi hs hp hq hf
    rw [splitLoop_nocomma]
    · cases s; simp_all [join]
    · intro c hc
      have hc2 : c ∈ s.stack := List.mem_of_mem_drop hc
      rw [hs] at hc2
      exact isDigits_no_comma (ht a (List.mem_cons_self _ _)) c (by simpa [join] using hc2)
  | cons b rest ih =>
    intro a fuel i s ht hi hs hp hq hf
    have ha := ht a (List.mem_cons_self _ _)
    have hapos : 0 < a.length := List.length_pos.mpr (isDigits_ne_nil ha)
    have hs2 : s.stack = a ++ ',' :: join (b :: rest) [','] := by
      rw [hs]; simp [join]
    have hlen : s.stack.length = a.length + 1 + (join (b :: rest) [',']).length := by
      rw [hs2]; simp; omega
    obtain ⟨k, hk⟩ : ∃ k, fuel = (a.length - i) + 1 + k := ⟨fuel - (a.length - i + 1), by omega⟩
    rw [hk, splitLoop_term a _ k (isDigits_no_comma ha) (a.length - i) i s (by omega) hs2 hp hq]
    rw [ih b k 1 { s with results := s.results ++ [a], stack := join (b :: rest) [','] }
      (fun t h => ht t (List.mem_cons_of_mem _ h)) (le_refl _) rfl hp hq
      (by simp only; omega)]
    simp [List.getLast_cons]

theorem finish_nocomma (s : Scan) (hs : s.stack ≠ []) (hc : ∀ c ∈ s.stack, c ≠ ',') :
    finish s = s.results ++ [s.stack] := by
  unfold finish
  rw [splitLoop_nocomma _ 0 s (by simpa using hc)]
  simp [hs]

theorem finish_join (a : GoString) (rest results : List GoString)
    (ht : ∀ t ∈ a :: rest, isDigits t = true) :
    finish ⟨join (a :: rest) [','], 0, false, results⟩ = results ++ a :: rest := by
  have hpos := join_length_pos rest [','] (isDigits_ne_nil (ht a (List.mem_cons_self _ _)))
  have hlast : isDigits ((a :: rest).getLast (List.cons_ne_nil _ _)) = true :=
    ht _ (List.getLast_mem _)
  unfold finish
  simp only [hpos, gt_iff_lt, if_true]
  rw [splitLoop_join rest a _ 0 _ ht (by omega) rfl rfl rfl (by simp)]
  simp only [isDigits_ne_nil hlast, ne_eq, not_false_eq_true, and_true, if_true, ite_self]
  rw [List.append_assoc, List.dropLast_append_getLast]

theorem evaluateEquation_terms (fuel : Nat) (table : Table) (row column : Int) (cell : Cell)
    (hcell : cellAt table row column = some cell) (hev : cell.evaluated = false)
    (heq : cell.equation ≠ []) (a : GoString) (rest : List GoString)
    (ht : ∀ t ∈ a :: rest, isDigits t = true) :
    evaluateEquation (fuel + 1) table (join (a :: rest) [',']) row column =
      .done (a :: rest, []) := by
  have hlast : isDigits ((a :: rest).getLast (List.cons_ne_nil _ _)) = true :=
    ht _ (List.getLast_mem _)
  rw [evaluateEquation, hcell]
  simp only [hev, heq, Bool.false_eq_true, or_self, if_false]
  rw [scanLoop_terms _ table row column rest a none _ ht rfl rfl rfl]
  simp only
  rw [finish_nocomma _ (isDigits_ne_nil hlast) (isDigits_no_comma hlast)]
  simp only [List.nil_append]
  rw [List.dropLast_append_getLast]

/-! ### A closing parenthesis -/

theorem indexByte_append (pre rest : GoString) (c : Char) (h : c ∉ pre) :
    indexByte (pre ++ c :: rest) c = pre.length := by
  induction pre with
  | nil => simp [indexByte]
  | cons x xs ih =>
    have hx : x ≠ c := fun e => h (by simp [e])
    have hxs : c ∉ xs := fun e => h (List.mem_cons_of_mem _ e)
    have hneg : ¬ ((xs.length : Int) < 0) := by omega
    show (if x = c then (0 : Int) else
      let r := indexByte (xs ++ c :: rest) c
      if r < 0 then -1 else r + 1) = _
    rw [if_neg hx, ih hxs]
    simp [hneg]

theorem slice_middle (pre inner : GoString) (x y : Char) :
    slice (pre ++ x :: (inner ++ [y])) ((pre.length : Int) + 1)
      (((pre ++ x :: (inner ++ [y])).length : Int) - 1) = some inner := by
  unfold slice
  have hlen : (pre ++ x :: (inner ++ [y])).length = pre.length + 1 + inner.length + 1 := by
    simp; omega
  rw [hlen, if_pos (by omega)]
  have h1 : ((((pre.length + 1 + inner.length + 1 : Nat) : Int)) - 1).toNat
      = pre.length + 1 + inner.length := by omega
  have h2 : ((pre.length : Int) + 1).toNat = pre.length + 1 := by omega
  rw [h1, h2]
  have : pre ++ x :: (inner ++ [y]) = (pre ++ [x]) ++ inner ++ [y] := by simp
  rw [this, List.take_append_of_le_length (by simp; omega)]
  rw [List.take_of_length_le (by simp; omega)]
  rw [List.drop_append_of_le_length (by simp)]
  rw [List.drop_of_length_le (by simp)]
  simp

theorem slice_front (pre rest : GoString) :
    slice (pre ++ rest) 0 (pre.length : Int) = some pre := by
  unfold slice
  rw [if_pos (by simp)]
  simp

theorem scanStep_close (eval : GoString → Int → Int → Outcome Evaluation) (table : Table)
    (row column : Int) (before : Option Char) (s : Scan) (pre inner : GoString)
    (hq : s.quote = false) (hp : s.parentheses = 1) (hs : s.stack = pre ++ '(' :: inner)
    (hpre : '(' ∉ pre) :
    scanStep eval table row column before ')' s =
      match eval inner row column with
      | .panic => .panic
      | .timeout => .timeout
      | .done (evaluationResults, err) =>
        if err = errorValue then .ret ([], errorValue)
        else
          match applyFunction pre evaluationResults with
          | none => .panic
          | some stack2 => .next { s with stack := stack2, parentheses := 0 } := by
  unfold scanStep
  have hb : byteString ')' = [')'] := by decide
  have hst : s.stack ++ [')'] = pre ++ '(' :: (inner ++ [')']) := by rw [hs]; simp
  rw [hb, hst]
  simp only [hq, hp, show ¬ (')' = '(') from by decide, false_and, if_false, true_and,
    and_self, if_true, sub_self, indexByte_append pre _ '(' hpre, slice_middle]
  rw [slice_front]

theorem join_inert (rest : List GoString) : ∀ (a : GoString) (n : Int), n ≠ 0 →
    (∀ t ∈ a :: rest, isDigits t = true) → ∀ c ∈ join (a :: rest) [','], inertByte n c := by
  induction rest with
  | nil =>
    intro a n _ ht c hc
    exact isDigits_inert (ht a (List.mem_cons_self _ _)) n c (by simpa [join] using hc)
  | cons b rest ih =>
    intro a n hn ht c hc
    simp only [join, List.append_assoc, List.singleton_append, List.mem_append,
      List.mem_cons] at hc
    rcases hc with hc | rfl | hc
    · exact isDigits_inert (ht a (List.mem_cons_self _ _)) n c hc
    · exact Or.inr ⟨rfl, hn⟩
    · exact ih b n hn (fun t h => ht t (List.mem_cons_of_mem _ h)) c hc

theorem spread_open (eval : GoString → Int → Int → Outcome Evaluation) (table : Table)
    (row column : Int) (rest : GoString) :
    scanLoop eval table row column none ("spread(".toList ++ rest) ⟨[], 0, false, []⟩ =
      scanLoop eval table row column (some '(') rest ⟨"spread(".toList, 1, false, []⟩ := by
  rfl

/-! ### `evaluateSum` on texts of digits -/

theorem parseDigits_all (ds : GoString) (h : ds.all isDigit = true) (acc : Nat) :
    parseDigits ds acc = some (ds.foldl (fun n c => n * 10 + digitValue c) acc) := by
  induction ds generalizing acc with
  | nil => rfl
  | cons d ds ih =>
    simp only [List.all_cons, Bool.and_eq_true] at h
    simp only [parseDigits, h.1, if_true, List.foldl_cons]
    exact ih h.2 _

theorem isDigits_all {t : GoString} (h : isDigits t = true) : t.all isDigit = true := by
  simp only [isDigits, Bool.and_eq_true] at h
  exact h.2

theorem isDigit_ne_of {c x : Char} (h : isDigit c = true) (hx : isDigit x = false) : c ≠ x := by
  rintro rfl; simp [h] at hx

theorem splitExponent_digits (ds : GoString) (h : ds.all isDigit = true) :
    splitExponent ds = (ds, none) := by
  induction ds with
  | nil => rfl
  | cons d ds ih =>
    simp only [List.all_cons, Bool.and_eq_true] at h
    have h1 : d ≠ 'E' := isDigit_ne_of h.1 (by decide)
    have h2 : d ≠ 'e' := isDigit_ne_of h.1 (by decide)
    simp [splitExponent, h1, h2, ih h.2]

theorem splitPoint_digits (ds : GoString) (h : ds.all isDigit = true) :
    splitPoint ds = (ds, none) := by
  induction ds with
  | nil => rfl
  | cons d ds ih =>
    simp only [List.all_cons, Bool.and_eq_true] at h
    have h1 : d ≠ '.' := isDigit_ne_of h.1 (by decide)
    simp [splitPoint, h1, ih h.2]

theorem count_point_digits (ds : GoString) (h : ds.all isDigit = true) :
    ds.count '.' = 0 := by
  rw [List.count_eq_zero]
  intro hmem
  have := List.all_eq_true.mp h _ hmem
  revert this; decide

theorem parseInt_digits (ds : GoString) (h : isDigits ds = true) :
    parseInt ds = some (digitsValue ds : Int) := by
  have hall := isDigits_all h
  cases ds with
  | nil => simp [isDigits] at h
  | cons d ds =>
    have hd : isDigit d = true := by
      simp only [List.all_cons, Bool.and_eq_true] at hall; exact hall.1
    have h1 : d ≠ '+' := isDigit_ne_of hd (by decide)
    have h2 : d ≠ '-' := isDigit_ne_of hd (by decide)
    simp only [parseInt, h1, h2, if_false, parseDigits_all _ hall, Option.map_some',
      digitsValue]
    rfl

theorem NewFromString_digits (ds : GoString) (h : isDigits ds = true) :
    NewFromString ds = some ⟨(digitsValue ds : Int), 0⟩ := by
  have hall := isDigits_all h
  unfold NewFromString
  simp only [splitExponent_digits ds hall, count_point_digits ds hall, splitPoint_digits ds hall,
    parseInt_digits ds h]
  rfl

theorem isDigits_ne_error {ds : GoString} (h : isDigits ds = true) : ds ≠ errorValue := by
  rintro rfl; revert h; decide

theorem evaluateSum_two_digits (da db : GoString) (ha : isDigits da = true)
    (hb : isDigits db = true) :
    evaluateSum [da, db] = Nat.toDigits 10 (digitsValue da + digitsValue db) := by
  simp only [evaluateSum, sumLoop, isDigits_ne_error ha, isDigits_ne_error hb, if_false,
    NewFromString_digits _ ha, NewFromString_digits _ hb, Option.getD_some]
  simp only [Decimal.Add, Decimal.Zero, Decimal.rescale, min_self, if_true, Decimal.String,
    ge_iff_le, le_refl, zero_add, intString, natString]
  have : ¬ ((digitsValue da : Int) + (digitsValue db : Int) < 0) := by omega
  rw [if_neg this]
  congr 1

theorem digitChar_isDigit (n : Nat) : isDigit (Nat.digitChar (n % 10)) = true := by
  have h : n % 10 < 10 := Nat.mod_lt _ (by decide)
  interval_cases n % 10 <;> decide

theorem toDigitsCore_digits (fuel : Nat) : ∀ (n : Nat) (acc : GoString),
    (∀ c ∈ acc, isDigit c = true) → ∀ c ∈ Nat.toDigitsCore 10 fuel n acc, isDigit c = true := by
  induction fuel with
  | zero => intro n acc h; simpa [Nat.toDigitsCore] using h
  | succ fuel ih =>
    intro n acc h
    have hacc : ∀ c ∈ Nat.digitChar (n % 10) :: acc, isDigit c = true := by
      intro c hc
      rcases List.mem_cons.mp hc with rfl | hc
      · exact digitChar_isDigit n
      · exact h c hc
    simp only [Nat.toDigitsCore]
    split_ifs
    · exact hacc
    · exact ih _ _ hacc

theorem toDigitsCore_ne_nil (fuel n : Nat) (acc : GoString) :
    Nat.toDigitsCore 10 (fuel + 1) n acc ≠ [] := by
  induction fuel generalizing n acc with
  | zero => simp [Nat.toDigitsCore]
  | succ fuel ih =>
    rw [Nat.toDigitsCore]
    split_ifs
    · simp
    · exact ih _ _

theorem toDigits_isDigits (n : Nat) : isDigits (Nat.toDigits 10 n) = true := by
  simp only [isDigits, Bool.and_eq_true, Bool.not_eq_true', List.isEmpty_eq_false,
    List.all_eq_true]
  exact ⟨toDigitsCore_ne_nil _ _ _, toDigitsCore_digits _ _ _ (by simp)⟩

/-! ### Spaces, plain bytes and references -/

theorem scanStep_space (eval : GoString → Int → Int → Outcome Evaluation)
    (table : Table) (row column : Int) (before : Option Char) (s : Scan)
    (hq : s.quote = false) :
    scanStep eval table row column before ' ' s = .next s := by
  unfold scanStep
  have hb : byteString ' ' = [' '] := by decide
  rw [hb]
  cases s
  simp_all

/-- The reference branch: a digit outside quotes, on a non-empty stack, right after a
letter. -/
theorem scanStep_reference (eval : GoString → Int → Int → Outcome Evaluation)
    (table : Table) (row column : Int) (letter c : Char) (s : Scan)
    (hc : isDigit c = true) (hq : s.quote = false) (hs : s.stack ≠ [])
    (hl : isLetter letter = true) :
    scanStep eval table row column (some letter) c s =
      match getColumnIndex (byteString letter) with
      | none => .panic
      | some referenceColumn =>
        match cellAt table (atoi (byteString (byteSub c 1))) referenceColumn with
        | none => .panic
        | some cell =>
          joinCall (eval cell.equation (atoi (byteString (byteSub c 1))) referenceColumn) s
            ((s.stack ++ [c]).take ((s.stack ++ [c]).length - 2)) := by
  obtain ⟨h1, h2, h3, h4, h5, h6, _, h8⟩ := isDigit_facts hc
  have hlen : (s.stack ++ [c]).length > 1 := by
    have := List.length_pos.mpr hs
    simp; omega
  unfold scanStep
  rw [h8]
  simp only [h1, h2, h3, h4, h5, false_and, and_false, if_false, hc, hq, true_and, hlen,
    hl, if_true]
  try rfl

theorem scanStep_plain (eval : GoString → Int → Int → Outcome Evaluation)
    (table : Table) (row column : Int) (before : Option Char) (c : Char) (s : Scan)
    (h1 : c ≠ '(') (h2 : c ≠ ')') (h3 : c ≠ '"') (h4 : c ≠ ' ') (h5 : c ≠ ',')
    (h6 : c ≠ '^') (h7 : isDigit c = false) (h8 : byteString c = [c]) :
    scanStep eval table row column before c s = .next { s with stack := s.stack ++ [c] } := by
  have hcopy := hasSuffix_copy_snoc s.stack h6
  unfold scanStep
  rw [h8]
  simp only [h1, h2, h3, h4, h5, h7, false_and, and_false, if_false, hcopy,
    Bool.false_eq_true]

theorem evaluateEquation_of_literal (fuel : Nat) (table : Table) (equation : GoString)
    (row column : Int) (cell : Cell) (hcell : cellAt table row column = some cell)
    (hlit : cell.equation = []) :
    evaluateEquation (fuel + 1) table equation row column = .done ([cell.value], []) := by
  simp [evaluateEquation, hcell, hlit]

theorem take_length_sub_two (xs : GoString) (x y : Char) :
    ((xs ++ [x]) ++ [y]).take (((xs ++ [x]) ++ [y]).length - 2) = xs := by
  simp

theorem sum_open (eval : GoString → Int → Int → Outcome Evaluation) (table : Table)
    (row column : Int) :
    scanLoop eval table row column none "sum(A1, B1)".toList ⟨[], 0, false, []⟩ =
      scanLoop eval table row column (some 'A') "1, B1)".toList
        ⟨"sum(A".toList, 1, false, []⟩ := by
  rfl

/-! ### Spaces outside the double-quoted strings -/

theorem joinCall_quote {r : Outcome Evaluation} {s s2 : Scan} {stack : GoString}
    (h : joinCall r s stack = .next s2) : s2.quote = s.quote := by
  unfold joinCall at h
  split at h
  · cases h; rfl
  · cases h
  · cases h

theorem scanStep_quote (eval : GoString → Int → Int → Outcome Evaluation) (table : Table)
    (row column : Int) (before : Option Char) (c : Char) (s s2 : Scan)
    (h : scanStep eval table row column before c s = .next s2) :
    s2.quote = if c = '"' then !s.quote else s.quote := by
  unfold scanStep at h
  split_ifs at h with h1 h2 h3 h4 h5
  all_goals (try dsimp only at h)
  all_goals (repeat' split at h)
  all_goals first
    | (cases h <;> simp_all)
    | (have hq := joinCall_quote h; simp_all)

theorem scanStep_before (eval : GoString → Int → Int → Outcome Evaluation) (table : Table)
    (row column : Int) (b1 b2 : Option Char) (c : Char) (s : Scan)
    (h : isDigit c = true → s.quote = false → s.stack ≠ [] →
      b1 = b2 ∨ ∃ p q, b1 = some p ∧ b2 = some q ∧ isLetter p = false ∧ isLetter q = false) :
    scanStep eval table row column b1 c s = scanStep eval table row column b2 c s := by
  by_cases hd : isDigit c = true
  · by_cases hq : s.quote = false
    · by_cases hs : s.stack = []
      · rw [scanStep_digit eval table row column b1 c s hd hq (Or.inl hs),
          scanStep_digit eval table row column b2 c s hd hq (Or.inl hs)]
      · rcases h hd hq hs with rfl | ⟨p, q, rfl, rfl, hp, hq2⟩
        · rfl
        · rw [scanStep_digit eval table row column (some p) c s hd hq (Or.inr ⟨p, rfl, hp⟩),
            scanStep_digit eval table row column (some q) c s hd hq (Or.inr ⟨q, rfl, hq2⟩)]
    · have hq2 : s.quote = true := by simpa using hq
      unfold scanStep
      simp only [hq2, Bool.true_eq_false, and_false, false_and, if_false]
  · have hd2 : isDigit c = false := by simpa using hd
    unfold scanStep
    simp only [hd2, Bool.false_eq_true, and_false, false_and, if_false]

theorem scanLoop_strip (eval : GoString → Int → Int → Outcome Evaluation) (table : Table)
    (row column : Int) (e : GoString) :
    ∀ (s : Scan) (before kept : Option Char) (gap : Bool),
      (gap = false → before = kept) → (gap = true → before = some ' ') →
      (kept = none → s.stack = []) →
      spacedReference s.quote kept gap e = false →
      scanLoop eval table row column before e s =
        scanLoop eval table row column kept (stripSpaces s.quote e) s := by
  induction e with
  | nil => intro s before kept gap _ _ _ _; rfl
  | cons c cs ih =>
    intro s before kept gap hg0 hg1 hk hsr
    by_cases hc : c = '"'
    · subst hc
      simp only [spacedReference, if_true] at hsr
      simp only [stripSpaces, if_true, scanLoop]
      rw [scanStep_before eval table row column before kept '"' s
        (fun hd => absurd hd (by decide))]
      cases hstep : scanStep eval table row column kept '"' s with
      | next s2 =>
        have hq2 : s2.quote = !s.quote := by
          simpa using scanStep_quote eval table row column kept '"' s s2 hstep
        simp only
        rw [← hq2] at hsr ⊢
        exact ih s2 (some '"') (some '"') false (fun _ => rfl) (fun h => by cases h)
          (fun h => by cases h) hsr
      | ret r => rfl
      | panic => rfl
      | timeout => rfl
    · by_cases hsp : c = ' ' ∧ s.quote = false
      · obtain ⟨rfl, hq⟩ := hsp
        simp only [spacedReference, hc, hq, and_self, if_true, if_false] at hsr
        simp only [stripSpaces, hc, hq, and_self, if_true, if_false, scanLoop]
        rw [scanStep_space eval table row column before s hq]
        simp only
        have := ih s (some ' ') kept true (fun h => by cases h) (fun _ => rfl) hk
          (by rw [hq]; exact hsr)
        rw [this, hq]
      · simp only [spacedReference, hc, hsp, if_false] at hsr
        simp only [stripSpaces, hc, hsp, if_false, scanLoop]
        have hstepeq : scanStep eval table row column before c s =
            scanStep eval table row column kept c s := by
          apply scanStep_before
          intro hd hq hs
          cases gap with
          | false => exact Or.inl (hg0 rfl)
          | true =>
            right
            cases kept with
            | none => exact absurd (hk rfl) hs
            | some l =>
              refine ⟨' ', l, hg1 rfl, rfl, by decide, ?_⟩
              cases hl : isLetter l with
              | false => rfl
              | true => simp [hd, hq, hl] at hsr
        rw [hstepeq]
        cases hstep : scanStep eval table row column kept c s with
        | next s2 =>
          have hq2 : s2.quote = s.quote := by
            simpa [hc] using scanStep_quote eval table row column kept c s s2 hstep
          simp only
          have hsr2 : spacedReference s2.quote (some c) false cs = false := by
            rw [hq2]
            split_ifs at hsr with hx
            exact hsr
          rw [← hq2]
          exact ih s2 (some c) (some c) false (fun _ => rfl) (fun h => by cases h)
            (fun h => by cases h) hsr2
        | ret r => rfl
        | panic => rfl
        | timeout => rfl

/-! ### The value of a text of digits -/

theorem foldl_digits (l : GoString) (acc : Nat) :
    l.foldl (fun n c => n * 10 + digitValue c) acc = acc * 10 ^ l.length + digitsValue l := by
  induction l generalizing acc with
  | nil => simp [digitsValue]
  | cons c cs ih =>
    simp only [List.foldl_cons, List.length_cons, digitsValue]
    rw [ih, ih (0 * 10 + digitValue c)]
    ring

theorem digitsValue_append (a b : GoString) :
    digitsValue (a ++ b) = digitsValue a * 10 ^ b.length + digitsValue b := by
  simp only [digitsValue, List.foldl_append]
  rw [foldl_digits b]
  rfl

theorem digitsValue_cons (c : Char) (cs : GoString) :
    digitsValue (c :: cs) = digitValue c * 10 ^ cs.length + digitsValue cs := by
  have := digitsValue_append [c] cs
  simpa [digitsValue] using this

theorem digitValue_digitChar (n : Nat) : digitValue (Nat.digitChar (n % 10)) = n % 10 := by
  have h : n % 10 < 10 := Nat.mod_lt _ (by decide)
  interval_cases n % 10 <;> rfl

theorem digitsValue_toDigitsCore (fuel : Nat) : ∀ (n : Nat) (acc : GoString), n < fuel →
    digitsValue (Nat.toDigitsCore 10 fuel n acc) = n * 10 ^ acc.length + digitsValue acc := by
  induction fuel with
  | zero => intro n acc h; omega
  | succ fuel ih =>
    intro n acc h
    rw [Nat.toDigitsCore]
    split_ifs with h0
    · rw [digitsValue_cons, digitValue_digitChar]
      have : n % 10 = n := Nat.mod_eq_of_lt (by omega)
      rw [this]
    · rw [ih (n / 10) _ (by omega), digitsValue_cons, digitValue_digitChar, List.length_cons]
      have := Nat.div_add_mod n 10
      calc n / 10 * 10 ^ (acc.length + 1) + (n % 10 * 10 ^ acc.length + digitsValue acc)
          = (10 * (n / 10) + n % 10) * 10 ^ acc.length + digitsValue acc := by ring
        _ = n * 10 ^ acc.length + digitsValue acc := by rw [this]

theorem digitsValue_toDigits (n : Nat) : digitsValue (Nat.toDigits 10 n) = n := by
  rw [Nat.toDigits, digitsValue_toDigitsCore (n + 1) n [] (by omega)]
  simp [digitsValue]

theorem digitChar_ne_zero (n : Nat) (h : n % 10 ≠ 0) : Nat.digitChar (n % 10) ≠ '0' := by
  have h1 : n % 10 < 10 := Nat.mod_lt _ (by decide)
  interval_cases n % 10 <;> first | decide | (exact absurd rfl h)

theorem toDigitsCore_head (fuel : Nat) : ∀ (n : Nat) (acc : GoString), n < fuel → n ≠ 0 →
    (Nat.toDigitsCore 10 fuel n acc).head? ≠ some '0' := by
  induction fuel with
  | zero => intro n acc h; omega
  | succ fuel ih =>
    intro n acc h hn
    rw [Nat.toDigitsCore]
    split_ifs with h0
    · have : n % 10 = n := Nat.mod_eq_of_lt (by omega)
      have hd := digitChar_ne_zero n (by omega)
      simpa using hd
    · exact ih (n / 10) _ (by omega) h0

theorem toDigits_head (n : Nat) (h : n ≠ 0) : (Nat.toDigits 10 n).head? ≠ some '0' :=
  toDigitsCore_head (n + 1) n [] (by omega) h

theorem digitsValue_replicate_zero (k : Nat) : digitsValue (List.replicate k '0') = 0 := by
  induction k with
  | zero => rfl
  | succ k ih =>
    rw [List.replicate_succ, digitsValue_cons, ih]
    have : digitValue '0' = 0 := by decide
    rw [this]
    simp

/-! ### Decimal literals -/

theorem splitPoint_eq (s : GoString) :
    s = (splitPoint s).1 ++ (match (splitPoint s).2 with
      | none => []
      | some r => '.' :: r) := by
  induction s with
  | nil => rfl
  | cons c cs ih =>
    by_cases hc : c = '.'
    · simp [splitPoint, hc]
    · simp only [splitPoint, hc, if_false, List.cons_append]
      exact congrArg _ ih

theorem splitPoint_fst (s : GoString) : '.' ∉ (splitPoint s).1 := by
  induction s with
  | nil => simp [splitPoint]
  | cons c cs ih =>
    by_cases hc : c = '.'
    · simp [splitPoint, hc]
    · simp only [splitPoint, hc, if_false, List.mem_cons, not_or]
      exact ⟨fun h => hc h.symm, ih⟩

theorem splitPoint_append (ip rest : GoString) (h : '.' ∉ ip) :
    splitPoint (ip ++ '.' :: rest) = (ip, some rest) := by
  induction ip with
  | nil => simp [splitPoint]
  | cons c cs ih =>
    have hc : c ≠ '.' := fun e => h (by simp [e])
    have hcs : '.' ∉ cs := fun e => h (List.mem_cons_of_mem _ e)
    simp [splitPoint, hc, ih hcs]

theorem splitPoint_none (ip : GoString) (h : '.' ∉ ip) : splitPoint ip = (ip, none) := by
  induction ip with
  | nil => rfl
  | cons c cs ih =>
    have hc : c ≠ '.' := fun e => h (by simp [e])
    have hcs : '.' ∉ cs := fun e => h (List.mem_cons_of_mem _ e)
    simp [splitPoint, hc, ih hcs]

theorem splitExponent_none (s : GoString) (h : ∀ c ∈ s, c ≠ 'E' ∧ c ≠ 'e') :
    splitExponent s = (s, none) := by
  induction s with
  | nil => rfl
  | cons c cs ih =>
    have hc := h c (List.mem_cons_self _ _)
    have hcs := ih (fun d hd => h d (List.mem_cons_of_mem _ hd))
    simp [splitExponent, hc.1, hc.2, hcs]

theorem isDigits_mem {t : GoString} (h : isDigits t = true) {c : Char} (hc : c ∈ t) :
    isDigit c = true :=
  List.all_eq_true.mp (isDigits_all h) c hc

theorem isDigits_no_point {t : GoString} (h : isDigits t = true) : '.' ∉ t := by
  intro hc
  have := isDigits_mem h hc
  revert this; decide

/-- The parts of a decimal literal. -/
theorem literal_shape (s : GoString) (h : isDecimalLiteral s = true) :
    ∃ (sign ip : GoString) (fpo : Option GoString),
      s = literalText sign ip fpo ∧ (sign = [] ∨ sign = ['+'] ∨ sign = ['-']) ∧
      isDigits ip = true ∧ (∀ fp, fpo = some fp → isDigits fp = true) := by
  simp only [isDecimalLiteral, Bool.and_eq_true] at h
  obtain ⟨hip, hfp⟩ := h
  refine ⟨if s = unsignedPart s then [] else s.take 1, (splitPoint (unsignedPart s)).1,
    (splitPoint (unsignedPart s)).2, ?_, ?_, hip, ?_⟩
  · have hu := splitPoint_eq (unsignedPart s)
    unfold literalText
    rw [← hu]
    cases s with
    | nil => simp [unsignedPart]
    | cons c cs =>
      by_cases hc : c = '+' ∨ c = '-'
      · simp only [unsignedPart, hc, if_true]
        have : ¬ (c :: cs = cs) := by
          intro e
          have := congrArg List.length e
          simp at this
        simp [this]
      · simp [unsignedPart, hc]
  · cases s with
    | nil => simp [unsignedPart]
    | cons c cs =>
      by_cases hc : c = '+' ∨ c = '-'
      · have : ¬ (c :: cs = cs) := by
          intro e
          have := congrArg List.length e
          simp at this
        simp only [unsignedPart, hc, if_true, this, if_false, List.take_succ_cons, List.take_zero]
        rcases hc with rfl | rfl <;> simp
      · simp [unsignedPart, hc]
  · intro fp hfpo
    rw [hfpo] at hfp
    exact hfp

theorem isDigits_append {a b : GoString} (ha : isDigits a = true)
    (hb : b.all isDigit = true) : isDigits (a ++ b) = true := by
  simp only [isDigits, Bool.and_eq_true, Bool.not_eq_true', List.isEmpty_eq_false,
    List.all_append] at ha ⊢
  exact ⟨by simp [ha.1], ha.2, hb⟩

theorem fractionDigits_all (fpo : Option GoString)
    (hfp : ∀ fp, fpo = some fp → isDigits fp = true) :
    (fractionDigits fpo).all isDigit = true := by
  cases fpo with
  | none => rfl
  | some fp => exact isDigits_all (hfp fp rfl)

theorem parseInt_signed (sign ds : GoString) (hs : sign = [] ∨ sign = ['+'] ∨ sign = ['-'])
    (hd : isDigits ds = true) :
    parseInt (sign ++ ds) =
      some (if sign = ['-'] then -(digitsValue ds : Int) else (digitsValue ds : Int)) := by
  have hne := isDigits_ne_nil hd
  rcases hs with rfl | rfl | rfl
  · simpa using parseInt_digits ds hd
  · have h := parseDigits_all ds (isDigits_all hd) 0
    simp only [List.singleton_append, parseInt, if_true, hne, if_false, h, Option.map_some']
    simp [digitsValue]
  · have h := parseDigits_all ds (isDigits_all hd) 0
    simp only [List.singleton_append, parseInt, show ¬ ('-' = '+') from by decide, if_true,
      hne, if_false, h, Option.map_some']
    simp [digitsValue]

theorem NewFromString_literalText (sign ip : GoString) (fpo : Option GoString)
    (hs : sign = [] ∨ sign = ['+'] ∨ sign = ['-']) (hip : isDigits ip = true)
    (hfp : ∀ fp, fpo = some fp → isDigits fp = true) :
    NewFromString (literalText sign ip fpo) =
      some ⟨if sign = ['-'] then -(digitsValue (ip ++ fractionDigits fpo) : Int)
              else (digitsValue (ip ++ fractionDigits fpo) : Int),
            -((fractionDigits fpo).length : Int)⟩ := by
  have hsign : ∀ c ∈ sign, c = '+' ∨ c = '-' := by
    intro c hc
    rcases hs with rfl | rfl | rfl <;> simp_all
  have hpre : '.' ∉ sign ++ ip := by
    intro hc
    rcases List.mem_append.mp hc with hc | hc
    · rcases hsign _ hc with h | h <;> exact absurd h (by decide)
    · exact isDigits_no_point hip hc
  have hexp : splitExponent (literalText sign ip fpo) = (literalText sign ip fpo, none) := by
    apply splitExponent_none
    intro c hc
    have hcases : (c = '+' ∨ c = '-') ∨ isDigit c = true ∨ c = '.' := by
      unfold literalText at hc
      rcases List.mem_append.mp hc with hc | hc
      · exact Or.inl (hsign c hc)
      · rcases List.mem_append.mp hc with hc | hc
        · exact Or.inr (Or.inl (isDigits_mem hip hc))
        · cases fpo with
          | none => simp at hc
          | some fp =>
            rcases List.mem_cons.mp hc with rfl | hc
            · exact Or.inr (Or.inr rfl)
            · exact Or.inr (Or.inl (isDigits_mem (hfp fp rfl) hc))
    rcases hcases with (rfl | rfl) | hd | rfl
    · decide
    · decide
    · exact ⟨isDigit_ne_of hd (by decide), isDigit_ne_of hd (by decide)⟩
    · decide
  have hds := isDigits_append hip (fractionDigits_all fpo hfp)
  unfold NewFromString
  simp only [hexp]
  cases fpo with
  | none =>
    have htext : literalText sign ip none = sign ++ ip := by simp [literalText]
    have hcount : ¬ ((sign ++ ip).count '.' > 1) := by
      rw [List.count_eq_zero.mpr hpre]; omega
    rw [htext]
    simp only [hcount, if_false, splitPoint_none _ hpre]
    have := parseInt_signed sign ip hs hip
    simp only [fractionDigits, Option.getD_none, List.append_nil] at hds ⊢
    rw [this]
    simp
  | some fp =>
    have htext : literalText sign ip (some fp) = (sign ++ ip) ++ '.' :: fp := by
      simp [literalText]
    have hcount : ¬ (((sign ++ ip) ++ '.' :: fp).count '.' > 1) := by
      rw [List.count_append, List.count_eq_zero.mpr hpre, List.count_cons_self,
        List.count_eq_zero.mpr (isDigits_no_point (hfp fp rfl))]
      omega
    rw [htext]
    simp only [hcount, if_false, splitPoint_append _ _ hpre]
    have := parseInt_signed sign (ip ++ fp) hs hds
    simp only [fractionDigits, Option.getD_some, List.append_assoc] at this ⊢
    rw [this]
    simp

theorem literalValue_literalText (sign ip : GoString) (fpo : Option GoString)
    (hs : sign = [] ∨ sign = ['+'] ∨ sign = ['-']) (hip : isDigits ip = true) :
    literalValue (literalText sign ip fpo) =
      (if sign = ['-'] then (-1 : ℚ) else 1) *
        ((digitsValue ip : ℚ) +
          (digitsValue (fractionDigits fpo) : ℚ) / 10 ^ (fractionDigits fpo).length) := by
  obtain ⟨d, ds, rfl⟩ := List.exists_cons_of_ne_nil (isDigits_ne_nil hip)
  have hd : isDigit d = true := isDigits_mem hip (List.mem_cons_self _ _)
  have hd1 : d ≠ '+' := isDigit_ne_of hd (by decide)
  have hd2 : d ≠ '-' := isDigit_ne_of hd (by decide)
  have hpt : '.' ∉ d :: ds := isDigits_no_point hip
  have hun : unsignedPart (literalText sign (d :: ds) fpo) = literalText [] (d :: ds) fpo := by
    rcases hs with rfl | rfl | rfl <;> simp [literalText, unsignedPart, hd1, hd2]
  have hhead : (literalText sign (d :: ds) fpo).head? = some '-' ↔ sign = ['-'] := by
    rcases hs with rfl | rfl | rfl <;> simp [literalText, hd2]
  have hsplit : splitPoint (literalText [] (d :: ds) fpo) = (d :: ds, fpo) := by
    cases fpo with
    | none =>
      have := splitPoint_none (d :: ds) hpt
      simpa [literalText] using this
    | some fp =>
      have := splitPoint_append (d :: ds) fp hpt
      simpa [literalText] using this
  have hval : unsignedValue (literalText [] (d :: ds) fpo) =
      (digitsValue (d :: ds) : ℚ) +
        (digitsValue (fractionDigits fpo) : ℚ) / 10 ^ (fractionDigits fpo).length := by
    unfold unsignedValue
    rw [hsplit]
    cases fpo with
    | none => simp [fractionDigits, digitsValue]
    | some fp => simp [fractionDigits]
  unfold literalValue
  rw [hun, hval]
  by_cases hneg : sign = ['-']
  · rw [if_pos (hhead.mpr hneg), if_pos hneg]; ring
  · rw [if_neg (fun h => hneg (hhead.mp h)), if_neg hneg]; ring

theorem NewFromString_literal (s : GoString) (h : isDecimalLiteral s = true) :
    ∃ d, NewFromString s = some d ∧ d.toRat = literalValue s := by
  obtain ⟨sign, ip, fpo, rfl, hs, hip, hfp⟩ := literal_shape s h
  refine ⟨_, NewFromString_literalText sign ip fpo hs hip hfp, ?_⟩
  rw [literalValue_literalText sign ip fpo hs hip]
  simp only [Decimal.toRat, digitsValue_append, zpow_neg, zpow_natCast]
  have h10 : ((10 : ℚ) ^ (fractionDigits fpo).length) ≠ 0 := by positivity
  by_cases hneg : sign = ['-']
  · simp only [hneg, if_true]
    push_cast
    field_simp
  · simp only [hneg, if_false]
    push_cast
    field_simp

/-! ### Exact addition -/

theorem rescale_toRat (d : Decimal) (e : Int) (h : e ≤ d.exp) :
    (d.rescale e).toRat = d.toRat ∧ (d.rescale e).exp = e := by
  unfold Decimal.rescale
  by_cases h1 : d.exp = e
  · simp [h1]
  · have h2 : ¬ (e > d.exp) := by omega
    simp only [h1, h2, if_false, Decimal.toRat, and_true]
    have hk : (((d.exp - e).toNat : Nat) : Int) = d.exp - e := Int.toNat_of_nonneg (by omega)
    have h10 : (10 : ℚ) ≠ 0 := by norm_num
    push_cast
    rw [mul_assoc, ← zpow_natCast, hk, ← zpow_add₀ h10]
    congr 2
    omega

theorem Add_toRat (d d2 : Decimal) : (d.Add d2).toRat = d.toRat + d2.toRat := by
  obtain ⟨h1, h1e⟩ := rescale_toRat d (min d.exp d2.exp) (min_le_left _ _)
  obtain ⟨h2, h2e⟩ := rescale_toRat d2 (min d.exp d2.exp) (min_le_right _ _)
  rw [← h1, ← h2]
  simp only [Decimal.Add, Decimal.toRat, h1e, h2e]
  push_cast
  ring

/-! ### The canonical text of a decimal -/

theorem trimZeros_spec (s : GoString) :
    (∃ z, s = trimZeros s ++ List.replicate z '0') ∧ (trimZeros s).getLast? ≠ some '0' := by
  constructor
  · refine ⟨(s.reverse.takeWhile (fun c => c == '0')).length, ?_⟩
    have h := List.takeWhile_append_dropWhile (fun c => c == '0') s.reverse
    have h2 := congrArg List.reverse h
    rw [List.reverse_append, List.reverse_reverse] at h2
    have hz : (s.reverse.takeWhile (fun c => c == '0')).reverse =
        List.replicate (s.reverse.takeWhile (fun c => c == '0')).length '0' := by
      rw [List.eq_replicate_iff]
      refine ⟨by simp, ?_⟩
      intro b hb
      have := List.mem_takeWhile_imp (List.mem_reverse.mp hb)
      simpa using this
    rw [hz] at h2
    exact h2.symm
  · unfold trimZeros
    rw [List.getLast?_reverse]
    have := List.head?_dropWhile_not (fun c => c == '0') s.reverse
    intro h
    rw [h] at this
    simp at this

theorem digitsValue_trimZeros (s : GoString) :
    (digitsValue (trimZeros s) : ℚ) / 10 ^ (trimZeros s).length =
      (digitsValue s : ℚ) / 10 ^ s.length := by
  obtain ⟨⟨z, hz⟩, _⟩ := trimZeros_spec s
  have h10 : ∀ n : Nat, ((10 : ℚ) ^ n) ≠ 0 := fun n => by positivity
  conv_rhs => rw [hz]
  rw [digitsValue_append, digitsValue_replicate_zero, List.length_append,
    List.length_replicate]
  push_cast
  rw [pow_add]
  field_simp
  ring

theorem trimZeros_all (s : GoString) (h : s.all isDigit = true) :
    (trimZeros s).all isDigit = true := by
  obtain ⟨⟨z, hz⟩, _⟩ := trimZeros_spec s
  rw [hz, List.all_append, Bool.and_eq_true] at h
  exact h.1

theorem trimZeros_nil_value (s : GoString) (h : trimZeros s = []) : digitsValue s = 0 := by
  obtain ⟨⟨z, hz⟩, _⟩ := trimZeros_spec s
  rw [h, List.nil_append] at hz
  rw [hz, digitsValue_replicate_zero]

theorem natAbs_signed (v : Int) :
    (if (if v < 0 then ['-'] else ([] : GoString)) = ['-'] then (-1 : ℚ) else 1) *
      (v.natAbs : ℚ) = (v : ℚ) := by
  by_cases hv : v < 0
  · simp only [hv, if_true]
    rw [Nat.cast_natAbs, abs_of_neg hv]
    push_cast
    ring
  · simp only [hv, if_false]
    rw [Nat.cast_natAbs, abs_of_nonneg (by omega)]
    simp

theorem toDigits_leading (n : Nat) :
    Nat.toDigits 10 n = ['0'] ∨ (Nat.toDigits 10 n).head? ≠ some '0' := by
  by_cases hn : n = 0
  · left; rw [hn]; rfl
  · right; exact toDigits_head n hn

theorem String_shape_nonneg (d : Decimal) (h : d.exp ≥ 0) :
    d.String = literalText (if d.value < 0 then ['-'] else [])
        (Nat.toDigits 10 (d.value.natAbs * 10 ^ d.exp.toNat)) none := by
  have hv : (d.rescale 0).value = d.value * 10 ^ d.exp.toNat := by
    unfold Decimal.rescale
    by_cases h0 : d.exp = 0
    · simp [h0]
    · have : ¬ (0 > d.exp) := by omega
      simp [h0, this]
  have hpos : (0 : Int) < 10 ^ d.exp.toNat := by positivity
  have hneg : (d.value * 10 ^ d.exp.toNat < 0) ↔ d.value < 0 := by
    constructor
    · intro hlt
      by_contra hge
      have : 0 ≤ d.value * 10 ^ d.exp.toNat := mul_nonneg (by omega) (le_of_lt hpos)
      omega
    · intro hlt
      exact mul_neg_of_neg_of_pos hlt hpos
  have habs : (d.value * 10 ^ d.exp.toNat).natAbs = d.value.natAbs * 10 ^ d.exp.toNat := by
    rw [Int.natAbs_mul, Int.natAbs_pow]
    rfl
  unfold Decimal.String
  rw [if_pos h, hv, intString, natString, habs]
  by_cases hlt : d.value < 0
  · rw [if_pos (hneg.mpr hlt), if_pos hlt]; simp [literalText]
  · rw [if_neg (fun x => hlt (hneg.mp x)), if_neg hlt]; simp [literalText]

theorem String_shape_neg (d : Decimal) (h : ¬ d.exp ≥ 0) :
    d.String = literalText (if d.value < 0 then ['-'] else [])
        (integerDigits d.value.natAbs (-d.exp).toNat)
        (fractionOption d.value.natAbs (-d.exp).toNat) := by
  unfold Decimal.String
  rw [if_neg h]
  simp only [natString, literalText, integerDigits, rawFraction, fractionOption]
  by_cases hlt : d.value < 0 <;>
    by_cases hlen : (Nat.toDigits 10 d.value.natAbs).length > (-d.exp).toNat <;>
    simp only [hlt, hlen, if_true, if_false] <;>
    split_ifs <;> simp

theorem rawFraction_length (n k : Nat) : (rawFraction n k).length = k := by
  unfold rawFraction
  split_ifs with h
  · rw [List.length_drop]; omega
  · rw [List.length_append, List.length_replicate]; omega

theorem integer_raw_value (n k : Nat) :
    digitsValue (integerDigits n k) * 10 ^ k + digitsValue (rawFraction n k) = n := by
  have hlen := rawFraction_length n k
  unfold integerDigits rawFraction at *
  split_ifs at hlen ⊢ with h
  · have := digitsValue_append ((Nat.toDigits 10 n).take ((Nat.toDigits 10 n).length - k))
      ((Nat.toDigits 10 n).drop ((Nat.toDigits 10 n).length - k))
    rw [List.take_append_drop, digitsValue_toDigits, hlen] at this
    exact this.symm
  · rw [digitsValue_append, digitsValue_replicate_zero, digitsValue_toDigits]
    simp [digitsValue, digitValue]

theorem rawFraction_all (n k : Nat) : (rawFraction n k).all isDigit = true := by
  have hd := isDigits_all (toDigits_isDigits n)
  unfold rawFraction
  split_ifs with h
  · rw [List.all_eq_true] at hd ⊢
    intro c hc
    exact hd c (List.mem_of_mem_drop hc)
  · rw [List.all_append, Bool.and_eq_true]
    refine ⟨?_, hd⟩
    rw [List.all_eq_true]
    intro c hc
    rw [List.eq_of_mem_replicate hc]
    decide

theorem integerDigits_spec (n k : Nat) (hk : 0 < k) :
    isDigits (integerDigits n k) = true ∧
      (integerDigits n k = ['0'] ∨ (integerDigits n k).head? ≠ some '0') := by
  have hd := isDigits_all (toDigits_isDigits n)
  unfold integerDigits
  split_ifs with h
  · have hn : n ≠ 0 := by
      rintro rfl
      have : (Nat.toDigits 10 0).length = 1 := rfl
      omega
    have hpos : 0 < (Nat.toDigits 10 n).length - k := by omega
    constructor
    · simp only [isDigits, Bool.and_eq_true, Bool.not_eq_true', List.isEmpty_eq_false]
      constructor
      · intro hnil
        have := congrArg List.length hnil
        rw [List.length_take] at this
        simp at this
        omega
      · rw [List.all_eq_true] at hd ⊢
        intro c hc
        exact hd c (List.mem_of_mem_take hc)
    · right
      rw [List.head?_take, if_neg (by omega)]
      exact toDigits_head n hn
  · exact ⟨by decide, Or.inl rfl⟩

theorem unsignedPart_literalText (sign ip : GoString) (fpo : Option GoString)
    (hs : sign = [] ∨ sign = ['+'] ∨ sign = ['-']) (hip : isDigits ip = true) :
    unsignedPart (literalText sign ip fpo) = literalText [] ip fpo := by
  obtain ⟨d, ds, rfl⟩ := List.exists_cons_of_ne_nil (isDigits_ne_nil hip)
  have hd : isDigit d = true := isDigits_mem hip (List.mem_cons_self _ _)
  have hd1 : d ≠ '+' := isDigit_ne_of hd (by decide)
  have hd2 : d ≠ '-' := isDigit_ne_of hd (by decide)
  rcases hs with rfl | rfl | rfl <;> simp [literalText, unsignedPart, hd1, hd2]

theorem splitPoint_literalText (ip : GoString) (fpo : Option GoString)
    (hip : isDigits ip = true) : splitPoint (literalText [] ip fpo) = (ip, fpo) := by
  have hpt := isDigits_no_point hip
  cases fpo with
  | none => simpa [literalText] using splitPoint_none ip hpt
  | some fp => simpa [literalText] using splitPoint_append ip fp hpt

theorem isCanonical_literalText (sign ip : GoString) (fpo : Option GoString)
    (hs : sign = [] ∨ sign = ['-']) (hip : isDigits ip = true)
    (hlead : ip = ['0'] ∨ ip.head? ≠ some '0')
    (hfp : ∀ fp, fpo = some fp → isDigits fp = true ∧ fp.getLast? ≠ some '0')
    (hzero : sign = ['-'] → ¬ (ip = ['0'] ∧ fpo = none)) :
    isCanonical (literalText sign ip fpo) = true := by
  have hs3 : sign = [] ∨ sign = ['+'] ∨ sign = ['-'] := by
    rcases hs with h | h
    · exact Or.inl h
    · exact Or.inr (Or.inr h)
  obtain ⟨d, ds, hcons⟩ := List.exists_cons_of_ne_nil (isDigits_ne_nil hip)
  have hd : isDigit d = true := by
    apply isDigits_mem hip; rw [hcons]; exact List.mem_cons_self _ _
  have hd1 : d ≠ '+' := isDigit_ne_of hd (by decide)
  have hplus : (literalText sign ip fpo).head? ≠ some '+' := by
    rcases hs with rfl | rfl
    · simp [literalText, hcons, hd1]
    · simp [literalText]
  have hnz : literalText sign ip fpo ≠ "-0".toList := by
    intro heq
    rcases hs with rfl | rfl
    · rw [hcons] at heq
      simp only [literalText, List.nil_append, List.cons_append] at heq
      have h1 : d = '-' := (List.cons.inj heq).1
      exact absurd h1 (isDigit_ne_of hd (by decide))
    · apply hzero rfl
      cases fpo with
      | none =>
        have h2 : ip = ['0'] := by simpa [literalText] using heq
        exact ⟨h2, rfl⟩
      | some fp =>
        exfalso
        have h2 := congrArg List.length heq
        have h3 := List.length_pos.mpr (isDigits_ne_nil hip)
        simp [literalText] at h2
        omega
  unfold isCanonical isDecimalLiteral
  rw [unsignedPart_literalText sign ip fpo hs3 hip, splitPoint_literalText ip fpo hip]
  simp only [hip, Bool.true_and, Bool.and_eq_true, bne_iff_ne, ne_eq, Bool.or_eq_true,
    beq_iff_eq]
  refine ⟨⟨⟨⟨?_, hplus⟩, hnz⟩, hlead⟩, ?_⟩
  · cases fpo with
    | none => rfl
    | some fp => exact (hfp fp rfl).1
  · cases fpo with
    | none => rfl
    | some fp => simpa using (hfp fp rfl).2

theorem fractionDigits_fractionOption (n k : Nat) :
    fractionDigits (fractionOption n k) = trimZeros (rawFraction n k) := by
  unfold fractionOption fractionDigits
  split_ifs with h
  · rfl
  · have : trimZeros (rawFraction n k) = [] := by
      apply List.eq_nil_of_length_eq_zero; omega
    rw [this]; rfl

theorem String_canonical (d : Decimal) :
    isCanonical d.String = true ∧ literalValue d.String = d.toRat := by
  have hsign : (if d.value < 0 then ['-'] else ([] : GoString)) = [] ∨
      (if d.value < 0 then ['-'] else ([] : GoString)) = ['-'] := by
    split_ifs
    · exact Or.inr rfl
    · exact Or.inl rfl
  have hsign3 : (if d.value < 0 then ['-'] else ([] : GoString)) = [] ∨
      (if d.value < 0 then ['-'] else ([] : GoString)) = ['+'] ∨
      (if d.value < 0 then ['-'] else ([] : GoString)) = ['-'] := by
    rcases hsign with h | h
    · exact Or.inl h
    · exact Or.inr (Or.inr h)
  have hneg : (if d.value < 0 then ['-'] else ([] : GoString)) = ['-'] → d.value < 0 := by
    split_ifs with h
    · exact fun _ => h
    · intro h2; cases h2
  by_cases h : d.exp ≥ 0
  · -- no digits after the point
    rw [String_shape_nonneg d h]
    have hip := toDigits_isDigits (d.value.natAbs * 10 ^ d.exp.toNat)
    constructor
    · apply isCanonical_literalText _ _ _ hsign hip (toDigits_leading _)
      · intro fp hfp; cases hfp
      · intro hs hz
        have hv := hneg hs
        have hne : d.value.natAbs * 10 ^ d.exp.toNat ≠ 0 := by
          have : d.value.natAbs ≠ 0 := by omega
          positivity
        have := toDigits_head _ hne
        rw [hz.1] at this
        exact this rfl
    · rw [literalValue_literalText _ _ _ hsign3 hip, digitsValue_toDigits]
      simp only [fractionDigits, Option.getD_none, List.length_nil, pow_zero, div_one,
        Decimal.toRat]
      have hexp : (10 : ℚ) ^ d.exp = 10 ^ d.exp.toNat := by
        rw [← zpow_natCast, Int.toNat_of_nonneg h]
      rw [hexp]
      have := natAbs_signed d.value
      push_cast
      simp only [digitsValue, List.foldl_nil, Nat.cast_zero, add_zero]
      rw [← mul_assoc, this]
  · -- digits after the point
    rw [String_shape_neg d h]
    have hk : 0 < (-d.exp).toNat := by omega
    obtain ⟨hip, hlead⟩ := integerDigits_spec d.value.natAbs (-d.exp).toNat hk
    have hval := integer_raw_value d.value.natAbs (-d.exp).toNat
    have hlen := rawFraction_length d.value.natAbs (-d.exp).toNat
    constructor
    · apply isCanonical_literalText _ _ _ hsign hip hlead
      · intro fp hfp
        unfold fractionOption at hfp
        split_ifs at hfp with hpos
        cases hfp
        refine ⟨?_, (trimZeros_spec _).2⟩
        simp only [isDigits, Bool.and_eq_true, Bool.not_eq_true', List.isEmpty_eq_false]
        exact ⟨List.length_pos.mp hpos, trimZeros_all _ (rawFraction_all _ _)⟩
      · intro hs hz
        have hv := hneg hs
        have hnone := hz.2
        unfold fractionOption at hnone
        split_ifs at hnone with hpos
        have htrim : trimZeros (rawFraction d.value.natAbs (-d.exp).toNat) = [] := by
          apply List.eq_nil_of_length_eq_zero; omega
        rw [hz.1, trimZeros_nil_value _ htrim] at hval
        simp [digitsValue, digitValue] at hval
        omega
    · rw [literalValue_literalText _ _ _ hsign3 hip, fractionDigits_fractionOption,
        digitsValue_trimZeros, hlen]
      have h10 : ((10 : ℚ) ^ (-d.exp).toNat) ≠ 0 := by positivity
      have hexp : (10 : ℚ) ^ d.exp = ((10 : ℚ) ^ (-d.exp).toNat)⁻¹ := by
        rw [← zpow_natCast, Int.toNat_of_nonneg (by omega), zpow_neg, inv_inv]
      have hq : (digitsValue (integerDigits d.value.natAbs (-d.exp).toNat) : ℚ) *
          10 ^ (-d.exp).toNat + (digitsValue (rawFraction d.value.natAbs (-d.exp).toNat) : ℚ)
          = (d.value.natAbs : ℚ) := by exact_mod_cast hval
      simp only [Decimal.toRat, hexp]
      rw [← natAbs_signed d.value, ← hq]
      field_simp

theorem isDecimalLiteral_ne_error {s : GoString} (h : isDecimalLiteral s = true) :
    s ≠ errorValue := by
  rintro rfl; revert h; decide

theorem sumLoop_exact (parameters : List GoString) :
    ∀ (result : Decimal), (∀ a ∈ parameters, isDecimalLiteral a = true) →
      ∃ d : Decimal, sumLoop parameters result = d.String ∧
        d.toRat = result.toRat + (parameters.map literalValue).sum := by
  induction parameters with
  | nil => intro result _; exact ⟨result, rfl, by simp⟩
  | cons p ps ih =>
    intro result hp
    have hlit := hp p (List.mem_cons_self _ _)
    obtain ⟨dp, hdp, hval⟩ := NewFromString_literal p hlit
    obtain ⟨d, hd, hdval⟩ := ih (result.Add dp) (fun a ha => hp a (List.mem_cons_of_mem _ ha))
    refine ⟨d, ?_, ?_⟩
    · rw [sumLoop, if_neg (isDecimalLiteral_ne_error hlit), hdp]
      exact hd
    · rw [hdval, Add_toRat, hval, List.map_cons, List.sum_cons]
      ring

/-- The budget `len(stack) + 1` of the second loop is never used up: a larger budget
gives the same result. -/
theorem splitLoop_fuel (fuel : Nat) : ∀ (extra i : Nat) (s : Scan),
    s.stack.length + 1 ≤ fuel + i → splitLoop (fuel + extra) i s = splitLoop fuel i s := by
  induction fuel with
  | zero =>
    intro extra i s h
    have hnone : s.stack[i]? = none := List.getElem?_eq_none (by omega)
    cases extra with
    | zero => rfl
    | succ extra =>
      rw [show 0 + (extra + 1) = extra + 1 from by omega]
      simp only [splitLoop, hnone]
  | succ fuel ih =>
    intro extra i s h
    rw [show fuel + 1 + extra = (fuel + extra) + 1 from by omega]
    cases hget : s.stack[i]? with
    | none => simp only [splitLoop, hget]
    | some c =>
      have hlt : i < s.stack.length := by
        by_contra hge
        rw [List.getElem?_eq_none (by omega)] at hget
        cases hget
      simp only [splitLoop, hget]
      split_ifs with hc
      · apply ih
        simp only [List.length_drop]
        omega
      · apply ih
        omega

/-- Without an argument `"#ERROR"` the loop of `evaluateSum` returns the text of a
decimal. -/
theorem sumLoop_number (parameters : List GoString) :
    ∀ (result : Decimal), errorValue ∉ parameters →
      ∃ d : Decimal, sumLoop parameters result = d.String := by
  induction parameters with
  | nil => intro result _; exact ⟨result, rfl⟩
  | cons p ps ih =>
    intro result h
    have hp : p ≠ errorValue := fun e => h (by simp [e])
    have hps : errorValue ∉ ps := fun e => h (List.mem_cons_of_mem _ e)
    obtain ⟨d, hd⟩ := ih (result.Add ((NewFromString p).getD Decimal.Zero)) hps
    exact ⟨d, by rw [sumLoop, if_neg hp]; exact hd⟩

/-! ### A canonical decimal text is determined by its value -/

theorem digitValue_lt {c : Char} (h : isDigit c = true) : digitValue c < 10 := by
  simp only [isDigit, Bool.and_eq_true, decide_eq_true_eq] at h
  unfold digitValue
  omega

theorem digitValue_inj {c d : Char} (hc : isDigit c = true) (hd : isDigit d = true)
    (h : digitValue c = digitValue d) : c = d := by
  simp only [isDigit, Bool.and_eq_true, decide_eq_true_eq] at hc hd
  unfold digitValue at h
  apply Char.ext
  apply UInt32.ext
  have : c.toNat = d.toNat := by omega
  exact this

theorem digitsValue_lt (x : GoString) (h : x.all isDigit = true) :
    digitsValue x < 10 ^ x.length := by
  induction x with
  | nil => simp [digitsValue]
  | cons c cs ih =>
    simp only [List.all_cons, Bool.and_eq_true] at h
    rw [digitsValue_cons, List.length_cons, pow_succ]
    have h1 := digitValue_lt h.1
    have h2 := ih h.2
    nlinarith

theorem digitsValue_inj_length (x : GoString) : ∀ (y : GoString), x.all isDigit = true →
    y.all isDigit = true → x.length = y.length → digitsValue x = digitsValue y → x = y := by
  induction x with
  | nil =>
    intro y _ _ hl _
    exact (List.length_eq_zero.mp hl.symm).symm
  | cons c cs ih =>
    intro y hx hy hl hv
    cases y with
    | nil => simp at hl
    | cons d ds =>
      simp only [List.all_cons, Bool.and_eq_true] at hx hy
      simp only [List.length_cons, add_left_inj] at hl
      rw [digitsValue_cons, digitsValue_cons, hl] at hv
      have h1 := digitsValue_lt cs hx.2
      have h2 := digitsValue_lt ds hy.2
      rw [hl] at h1
      have hpos : 0 < 10 ^ ds.length := by positivity
      have hcd : digitValue c = digitValue d := by
        have e1 : (digitValue c * 10 ^ ds.length + digitsValue cs) / 10 ^ ds.length
            = digitValue c := by
          rw [Nat.mul_comm, Nat.mul_add_div hpos, Nat.div_eq_of_lt h1]; rfl
        have e2 : (digitValue d * 10 ^ ds.length + digitsValue ds) / 10 ^ ds.length
            = digitValue d := by
          rw [Nat.mul_comm, Nat.mul_add_div hpos, Nat.div_eq_of_lt h2]; rfl
        rw [← e1, ← e2, hv]
      have hrest : digitsValue cs = digitsValue ds := by
        rw [hcd] at hv; omega
      rw [digitValue_inj hx.1 hy.1 hcd, ih ds hx.2 hy.2 hl hrest]

theorem digitsValue_ge (x : GoString) (h : isDigits x = true) (hh : x.head? ≠ some '0') :
    10 ^ (x.length - 1) ≤ digitsValue x := by
  obtain ⟨c, cs, rfl⟩ := List.exists_cons_of_ne_nil (isDigits_ne_nil h)
  have hc : isDigit c = true := isDigits_mem h (List.mem_cons_self _ _)
  have hne : c ≠ '0' := by simpa using hh
  have hpos : 1 ≤ digitValue c := by
    by_contra hlt
    have h0 : digitValue c = digitValue '0' := by
      have : digitValue '0' = 0 := by decide
      omega
    exact hne (digitValue_inj hc (by decide) h0)
  rw [digitsValue_cons, List.length_cons, Nat.add_sub_cancel]
  calc 10 ^ cs.length = 1 * 10 ^ cs.length := by ring
    _ ≤ digitValue c * 10 ^ cs.length := Nat.mul_le_mul_right _ hpos
    _ ≤ digitValue c * 10 ^ cs.length + digitsValue cs := Nat.le_add_right _ _

/-- Two texts of digits with no leading zero that write the same number are equal. -/
theorem digitsValue_inj (x y : GoString) (hx : isDigits x = true) (hy : isDigits y = true)
    (hlx : x = ['0'] ∨ x.head? ≠ some '0') (hly : y = ['0'] ∨ y.head? ≠ some '0')
    (hv : digitsValue x = digitsValue y) : x = y := by
  have key : ∀ (a b : GoString), isDigits a = true → isDigits b = true →
      a.head? ≠ some '0' → b.head? ≠ some '0' → digitsValue a = digitsValue b →
      a.length ≤ b.length → a = b := by
    intro a b ha hb hha hhb hab hlen
    have h1 := digitsValue_ge b hb hhb
    have h2 := digitsValue_lt a (isDigits_all ha)
    have hlen2 : a.length = b.length := by
      by_contra hne
      have hlt : a.length ≤ b.length - 1 := by omega
      have := Nat.pow_le_pow_right (show 0 < 10 by decide) hlt
      omega
    exact digitsValue_inj_length a b (isDigits_all ha) (isDigits_all hb) hlen2 hab
  have zero : ∀ (b : GoString), isDigits b = true → b.head? ≠ some '0' →
      digitsValue b ≠ 0 := by
    intro b hb hhb h0
    have h1 := digitsValue_ge b hb hhb
    have : 0 < 10 ^ (b.length - 1) := by positivity
    omega
  rcases hlx with rfl | hlx
  · rcases hly with rfl | hly
    · rfl
    · exact absurd hv.symm (zero y hy hly)
  · rcases hly with rfl | hly
    · exact absurd hv (zero x hx hlx)
    · rcases Nat.le_total x.length y.length with hl | hl
      · exact key x y hx hy hlx hly hv hl
      · exact (key y x hy hx hly hlx hv.symm hl).symm

theorem digitsValue_mod_ten (x : GoString) (hx : isDigits x = true) :
    ∃ c, x.getLast? = some c ∧ isDigit c = true ∧ digitsValue x % 10 = digitValue c := by
  obtain ⟨ys, c, rfl⟩ : ∃ ys c, x = ys ++ [c] := by
    have hne := isDigits_ne_nil hx
    exact ⟨x.dropLast, x.getLast hne, (List.dropLast_append_getLast hne).symm⟩
  have hc : isDigit c = true := isDigits_mem hx (by simp)
  refine ⟨c, by simp, hc, ?_⟩
  rw [digitsValue_append]
  have hlt := digitValue_lt hc
  have : digitsValue [c] = digitValue c := by simp [digitsValue]
  rw [this]
  simp only [List.length_singleton, pow_one]
  omega

/-- Two fractional parts, neither ending in `0`, that write the same fraction are
equal. -/
theorem fraction_inj (x y : GoString) (hx : x.all isDigit = true) (hy : y.all isDigit = true)
    (hlx : x.getLast? ≠ some '0') (hly : y.getLast? ≠ some '0')
    (hv : (digitsValue x : ℚ) / 10 ^ x.length = (digitsValue y : ℚ) / 10 ^ y.length) :
    x = y := by
  have key : ∀ (a b : GoString), a.all isDigit = true → b.all isDigit = true →
      b.getLast? ≠ some '0' →
      (digitsValue a : ℚ) / 10 ^ a.length = (digitsValue b : ℚ) / 10 ^ b.length →
      a.length ≤ b.length → a = b := by
    intro a b ha hb hlb hab hlen
    obtain ⟨k, hk⟩ : ∃ k, b.length = a.length + k := ⟨b.length - a.length, by omega⟩
    have hnat : digitsValue a * 10 ^ k = digitsValue b := by
      have h10a : ((10 : ℚ) ^ a.length) ≠ 0 := by positivity
      have h10k : ((10 : ℚ) ^ k) ≠ 0 := by positivity
      rw [hk, pow_add] at hab
      field_simp at hab
      have h2 : (digitsValue a : ℚ) * 10 ^ k * 10 ^ a.length =
          (digitsValue b : ℚ) * 10 ^ a.length := by rw [← hab]; ring
      have h3 := mul_right_cancel₀ h10a h2
      exact_mod_cast h3
    have hk0 : k = 0 := by
      by_contra hne
      have hbne : b ≠ [] := by
        intro hb0
        rw [hb0] at hk
        simp at hk
        omega
      have hbd : isDigits b = true := by
        simp only [isDigits, Bool.and_eq_true, Bool.not_eq_true', List.isEmpty_eq_false]
        exact ⟨hbne, hb⟩
      obtain ⟨c, hc, hcd, hmod⟩ := digitsValue_mod_ten b hbd
      obtain ⟨j, rfl⟩ : ∃ j, k = j + 1 := ⟨k - 1, by omega⟩
      have h0 : digitsValue b % 10 = 0 := by
        rw [← hnat, pow_succ, ← Nat.mul_assoc]
        exact Nat.mul_mod_left _ _
      have : c = '0' := digitValue_inj hcd (by decide) (by
        have : digitValue '0' = 0 := by decide
        omega)
      rw [this] at hc
      exact hlb hc
    subst hk0
    simp only [pow_zero, mul_one] at hnat
    exact digitsValue_inj_length a b ha hb (by omega) hnat
  rcases Nat.le_total x.length y.length with hl | hl
  · exact key x y hx hy hly hv hl
  · exact (key y x hy hx hlx hv.symm hl).symm

theorem canonical_shape (s : GoString) (h : isCanonical s = true) :
    ∃ (sign ip : GoString) (fpo : Option GoString),
      s = literalText sign ip fpo ∧ (sign = [] ∨ sign = ['-']) ∧ isDigits ip = true ∧
      (ip = ['0'] ∨ ip.head? ≠ some '0') ∧
      (∀ fp, fpo = some fp → isDigits fp = true ∧ fp.getLast? ≠ some '0') ∧
      (sign = ['-'] → ¬ (ip = ['0'] ∧ fpo = none)) := by
  have hlit : isDecimalLiteral s = true := by
    simp only [isCanonical, Bool.and_eq_true] at h
    exact h.1.1.1.1
  obtain ⟨sign, ip, fpo, rfl, hs, hip, hfp⟩ := literal_shape s hlit
  unfold isCanonical at h
  rw [unsignedPart_literalText sign ip fpo hs hip, splitPoint_literalText ip fpo hip] at h
  simp only [Bool.and_eq_true, bne_iff_ne, ne_eq, Bool.or_eq_true, beq_iff_eq] at h
  obtain ⟨⟨⟨⟨_, hplus⟩, hnz⟩, hlead⟩, hlast⟩ := h
  refine ⟨sign, ip, fpo, rfl, ?_, hip, hlead, ?_, ?_⟩
  · rcases hs with rfl | rfl | rfl
    · exact Or.inl rfl
    · exact absurd (by simp [literalText]) hplus
    · exact Or.inr rfl
  · intro fp hfpo
    subst hfpo
    exact ⟨hfp fp rfl, by simpa using hlast⟩
  · rintro rfl ⟨rfl, rfl⟩
    exact hnz (by decide)

theorem fraction_bounds (fpo : Option GoString)
    (hfp : ∀ fp, fpo = some fp → isDigits fp = true ∧ fp.getLast? ≠ some '0') :
    (0 : ℚ) ≤ (digitsValue (fractionDigits fpo) : ℚ) / 10 ^ (fractionDigits fpo).length ∧
    (digitsValue (fractionDigits fpo) : ℚ) / 10 ^ (fractionDigits fpo).length < 1 ∧
    (fpo ≠ none →
      (0 : ℚ) < (digitsValue (fractionDigits fpo) : ℚ) / 10 ^ (fractionDigits fpo).length) := by
  have hall : (fractionDigits fpo).all isDigit = true :=
    fractionDigits_all fpo (fun fp h => (hfp fp h).1)
  have hlt := digitsValue_lt _ hall
  have h10 : (0 : ℚ) < 10 ^ (fractionDigits fpo).length := by positivity
  refine ⟨by positivity, ?_, ?_⟩
  · rw [div_lt_one h10]
    exact_mod_cast hlt
  · intro hne
    obtain ⟨fp, rfl⟩ := Option.ne_none_iff_exists'.mp hne
    obtain ⟨hd, hl⟩ := hfp fp rfl
    obtain ⟨c, hc, hcd, hmod⟩ := digitsValue_mod_ten fp hd
    have hpos : 0 < digitsValue fp := by
      by_contra h0
      have h00 : digitsValue fp = 0 := by omega
      rw [h00] at hmod
      have : c = '0' := digitValue_inj hcd (by decide) (by
        have : digitValue '0' = 0 := by decide
        omega)
      rw [this] at hc
      exact hl hc
    simp only [fractionDigits, Option.getD_some]
    have : (0 : ℚ) < (digitsValue fp : ℚ) := by exact_mod_cast hpos
    positivity

/-- A canonical decimal text is determined by its value. -/
theorem isCanonical_unique (s t : GoString) (hs : isCanonical s = true)
    (ht : isCanonical t = true) (hv : literalValue s = literalValue t) : s = t := by
  obtain ⟨sg, ip, fpo, rfl, hsg, hip, hlead, hfp, hz⟩ := canonical_shape s hs
  obtain ⟨sg2, ip2, fpo2, rfl, hsg2, hip2, hlead2, hfp2, hz2⟩ := canonical_shape t ht
  have h3 : ∀ {x : GoString}, (x = [] ∨ x = ['-']) → (x = [] ∨ x = ['+'] ∨ x = ['-']) := by
    intro x hx
    rcases hx with h | h
    · exact Or.inl h
    · exact Or.inr (Or.inr h)
  rw [literalValue_literalText sg ip fpo (h3 hsg) hip,
    literalValue_literalText sg2 ip2 fpo2 (h3 hsg2) hip2] at hv
  obtain ⟨f0, f1, fpos⟩ := fraction_bounds fpo hfp
  obtain ⟨g0, g1, gpos⟩ := fraction_bounds fpo2 hfp2
  have hI : (0 : ℚ) ≤ (digitsValue ip : ℚ) := by positivity
  have hI2 : (0 : ℚ) ≤ (digitsValue ip2 : ℚ) := by positivity
  -- a text with a minus sign writes a negative number
  have neg : ∀ (p : GoString) (q : Option GoString), isDigits p = true →
      (p = ['0'] ∨ p.head? ≠ some '0') →
      (∀ fp, q = some fp → isDigits fp = true ∧ fp.getLast? ≠ some '0') →
      ¬ (p = ['0'] ∧ q = none) →
      (0 : ℚ) < (digitsValue p : ℚ) +
        (digitsValue (fractionDigits q) : ℚ) / 10 ^ (fractionDigits q).length := by
    intro p q hp hl hq hne
    obtain ⟨q0, _, qpos⟩ := fraction_bounds q hq
    by_cases hq0 : q = none
    · have hp0 : p ≠ ['0'] := fun h => hne ⟨h, hq0⟩
      have hh : p.head? ≠ some '0' := by
        rcases hl with h | h
        · exact absurd h hp0
        · exact h
      have := digitsValue_ge p hp hh
      have h1 : 0 < 10 ^ (p.length - 1) := by positivity
      have h2 : (0 : ℚ) < (digitsValue p : ℚ) := by exact_mod_cast (by omega : 0 < digitsValue p)
      linarith
    · have := qpos hq0
      have h2 : (0 : ℚ) ≤ (digitsValue p : ℚ) := by positivity
      linarith
  have hsign : sg = sg2 := by
    rcases hsg with rfl | rfl <;> rcases hsg2 with rfl | rfl
    · rfl
    · exfalso
      have := neg ip2 fpo2 hip2 hlead2 hfp2 (hz2 rfl)
      simp at hv
      linarith
    · exfalso
      have := neg ip fpo hip hlead hfp (hz rfl)
      simp at hv
      linarith
    · rfl
  subst hsign
  have hsum : (digitsValue ip : ℚ) +
      (digitsValue (fractionDigits fpo) : ℚ) / 10 ^ (fractionDigits fpo).length =
      (digitsValue ip2 : ℚ) +
        (digitsValue (fractionDigits fpo2) : ℚ) / 10 ^ (fractionDigits fpo2).length := by
    rcases hsg with rfl | rfl
    · simpa using hv
    · simp at hv
      linarith
  have hint : digitsValue ip = digitsValue ip2 := by
    have a1 : (digitsValue ip : ℚ) < (digitsValue ip2 : ℚ) + 1 := by linarith
    have a2 : (digitsValue ip2 : ℚ) < (digitsValue ip : ℚ) + 1 := by linarith
    have b1 : digitsValue ip < digitsValue ip2 + 1 := by exact_mod_cast a1
    have b2 : digitsValue ip2 < digitsValue ip + 1 := by exact_mod_cast a2
    omega
  have hipeq : ip = ip2 := digitsValue_inj ip ip2 hip hip2 hlead hlead2 hint
  have hfrac : (digitsValue (fractionDigits fpo) : ℚ) / 10 ^ (fractionDigits fpo).length =
      (digitsValue (fractionDigits fpo2) : ℚ) / 10 ^ (fractionDigits fpo2).length := by
    rw [hint] at hsum
    linarith
  have hlast : ∀ (q : Option GoString),
      (∀ fp, q = some fp → isDigits fp = true ∧ fp.getLast? ≠ some '0') →
      (fractionDigits q).getLast? ≠ some '0' := by
    intro q hq
    cases q with
    | none => simp [fractionDigits]
    | some fp => exact (hq fp rfl).2
  have hfeq : fractionDigits fpo = fractionDigits fpo2 :=
    fraction_inj _ _ (fractionDigits_all fpo (fun fp h => (hfp fp h).1))
      (fractionDigits_all fpo2 (fun fp h => (hfp2 fp h).1)) (hlast fpo hfp) (hlast fpo2 hfp2)
      hfrac
  have hfpo : fpo = fpo2 := by
    cases fpo with
    | none =>
      cases fpo2 with
      | none => rfl
      | some fp2 =>
        exfalso
        have := isDigits_ne_nil (hfp2 fp2 rfl).1
        simp [fractionDigits] at hfeq
        exact this hfeq
    | some fp =>
      cases fpo2 with
      | none =>
        exfalso
        have := isDigits_ne_nil (hfp fp rfl).1
        simp [fractionDigits] at hfeq
        exact this hfeq
      | some fp2 =>
        simp [fractionDigits] at hfeq
        rw [hfeq]
  rw [hipeq, hfpo]

/-! ### Arguments of `evaluateSum` that are not numbers -/

theorem sumLoop_parsed (parameters : List GoString) :
    ∀ (result : Decimal), errorValue ∉ parameters →
      ∃ d : Decimal, sumLoop parameters result = d.String ∧
        d.toRat = result.toRat + (parameters.map parsedValue).sum := by
  induction parameters with
  | nil => intro result _; exact ⟨result, rfl, by simp⟩
  | cons p ps ih =>
    intro result h
    have hp : p ≠ errorValue := fun e => h (by simp [e])
    have hps : errorValue ∉ ps := fun e => h (List.mem_cons_of_mem _ e)
    obtain ⟨d, hd, hval⟩ := ih (result.Add ((NewFromString p).getD Decimal.Zero)) hps
    refine ⟨d, by rw [sumLoop, if_neg hp]; exact hd, ?_⟩
    have hpv : ((NewFromString p).getD Decimal.Zero).toRat = parsedValue p := by
      unfold parsedValue
      cases NewFromString p with
      | none => simp [Decimal.toRat, Decimal.Zero]
      | some d => rfl
    rw [hval, Add_toRat, hpv, List.map_cons, List.sum_cons]
    ring

theorem parseDigits_bytes : ∀ (s : GoString) (acc n : Nat), parseDigits s acc = some n →
    ∀ c ∈ s, isDigit c = true := by
  intro s
  induction s with
  | nil => intro _ _ _ c hc; cases hc
  | cons x xs ih =>
    intro acc n h c hc
    rw [parseDigits] at h
    split_ifs at h with hx
    rcases List.mem_cons.mp hc with rfl | hc
    · exact hx
    · exact ih _ n h c hc

theorem isNumberByte_digit {c : Char} (h : isDigit c = true) : isNumberByte c = true := by
  simp [isNumberByte, h]

theorem parseInt_bytes (s : GoString) (n : Int) (h : parseInt s = some n) :
    ∀ c ∈ s, isNumberByte c = true := by
  cases s with
  | nil => cases h
  | cons x xs =>
    have htail : ∀ (m : Nat), parseDigits xs 0 = some m → ∀ c ∈ x :: xs,
        isNumberByte x = true → isNumberByte c = true := by
      intro m hm c hc hx
      rcases List.mem_cons.mp hc with rfl | hc
      · exact hx
      · exact isNumberByte_digit (parseDigits_bytes xs 0 m hm c hc)
    intro c hc
    simp only [parseInt] at h
    split_ifs at h with h1 h2 h3 h4
    · cases hp : parseDigits xs 0 with
      | none => rw [hp] at h; cases h
      | some m => exact htail m hp c hc (by rw [h1]; decide)
    · cases hp : parseDigits xs 0 with
      | none => rw [hp] at h; cases h
      | some m => exact htail m hp c hc (by rw [h3]; decide)
    · cases hp : parseDigits (x :: xs) 0 with
      | none => rw [hp] at h; cases h
      | some m => exact isNumberByte_digit (parseDigits_bytes _ 0 m hp c hc)

theorem mem_splitExponent (c : Char) (h1 : c ≠ 'E') (h2 : c ≠ 'e') :
    ∀ value : GoString, c ∈ value →
      c ∈ (splitExponent value).1 ∨ ∃ e, (splitExponent value).2 = some e ∧ c ∈ e := by
  intro value
  induction value with
  | nil => intro hc; cases hc
  | cons x xs ih =>
    intro hc
    rw [splitExponent]
    split_ifs with hx
    · rcases List.mem_cons.mp hc with rfl | hc
      · rcases hx with hx | hx
        · exact absurd hx h1
        · exact absurd hx h2
      · exact Or.inr ⟨xs, rfl, hc⟩
    · rcases List.mem_cons.mp hc with rfl | hc
      · exact Or.inl (List.mem_cons_self _ _)
      · rcases ih hc with h | h
        · exact Or.inl (List.mem_cons_of_mem _ h)
        · exact Or.inr h

theorem mem_splitPoint (c : Char) (h1 : c ≠ '.') :
    ∀ value : GoString, c ∈ value →
      c ∈ (splitPoint value).1 ∨ ∃ e, (splitPoint value).2 = some e ∧ c ∈ e := by
  intro value
  induction value with
  | nil => intro hc; cases hc
  | cons x xs ih =>
    intro hc
    rw [splitPoint]
    split_ifs with hx
    · rcases List.mem_cons.mp hc with rfl | hc
      · exact absurd hx h1
      · exact Or.inr ⟨xs, rfl, hc⟩
    · rcases List.mem_cons.mp hc with rfl | hc
      · exact Or.inl (List.mem_cons_self _ _)
      · rcases ih hc with h | h
        · exact Or.inl (List.mem_cons_of_mem _ h)
        · exact Or.inr h

/-- The decimal parser reports an error for a text that holds a byte other than a digit,
a sign, the point, `e` and `E`. -/
theorem NewFromString_foreign (s : GoString) (h : hasForeignByte s = true) :
    NewFromString s = none := by
  simp only [hasForeignByte, List.any_eq_true, Bool.not_eq_true'] at h
  obtain ⟨c, hc, hnb⟩ := h
  have hE : c ≠ 'E' := by rintro rfl; revert hnb; decide
  have he : c ≠ 'e' := by rintro rfl; revert hnb; decide
  have hp : c ≠ '.' := by rintro rfl; revert hnb; decide
  have hparse : ∀ t : GoString, c ∈ t → parseInt t = none := by
    intro t ht
    cases hpt : parseInt t with
    | none => rfl
    | some n =>
      have := parseInt_bytes t n hpt c ht
      rw [hnb] at this
      cases this
  unfold NewFromString
  dsimp only
  split
  · rfl
  · rename_i expInt hw
    rcases mem_splitExponent c hE he s hc with hm | ⟨e, hse, hce⟩
    · rcases mem_splitPoint c hp _ hm with hi | ⟨f, hsf, hcf⟩
      · cases hf : (splitPoint (splitExponent s).1).2 with
        | none => simp only [hparse _ hm, ite_self]
        | some f => simp only [hparse _ (List.mem_append_left f hi), ite_self]
      · simp only [hsf, hparse _ (List.mem_append_right (splitPoint (splitExponent s).1).1 hcf),
          ite_self]
    · rw [hse] at hw
      simp only [parseInt32, hparse e hce] at hw
      cases hw

theorem parsedValue_argument (p : GoString)
    (h : isDecimalLiteral p = true ∨ hasForeignByte p = true) :
    parsedValue p = argumentValue p := by
  unfold parsedValue argumentValue
  by_cases hl : isDecimalLiteral p = true
  · obtain ⟨d, hd, hv⟩ := NewFromString_literal p hl
    rw [hd, if_pos hl]
    exact hv
  · rcases h with h | h
    · exact absurd h hl
    · rw [NewFromString_foreign p h, if_neg hl]

/-! ### Two cells that refer to each other -/

theorem cycle_scan_A1 (eval : GoString → Int → Int → Outcome Evaluation) :
    scanLoop eval cycleTable 0 0 none "B1".toList ⟨[], 0, false, []⟩ =
      match joinCall (eval "A1".toList 0 1) ⟨['B'], 0, false, []⟩ [] with
      | .next s2 => .next s2
      | other => other := by
  rfl

theorem cycle_scan_B1 (eval : GoString → Int → Int → Outcome Evaluation) :
    scanLoop eval cycleTable 0 1 none "A1".toList ⟨[], 0, false, []⟩ =
      match joinCall (eval "B1".toList 0 0) ⟨['A'], 0, false, []⟩ [] with
      | .next s2 => .next s2
      | other => other := by
  rfl

theorem cycle_timeout (fuel : Nat) :
    evaluateEquation fuel cycleTable "B1".toList 0 0 = .timeout ∧
    evaluateEquation fuel cycleTable "A1".toList 0 1 = .timeout := by
  induction fuel with
  | zero => exact ⟨rfl, rfl⟩
  | succ fuel ih =>
    constructor
    · rw [evaluateEquation]
      simp only [show cellAt cycleTable 0 0 = some ⟨[], "B1".toList, 0, 0, false⟩ from rfl,
        show ¬ ((false = true) ∨ "B1".toList = []) from by decide, if_false,
        cycle_scan_A1, ih.2, joinCall]
    · rw [evaluateEquation]
      simp only [show cellAt cycleTable 0 1 = some ⟨[], "A1".toList, 1, 0, false⟩ from rfl,
        show ¬ ((false = true) ∨ "A1".toList = []) from by decide, if_false,
        cycle_scan_B1, ih.1, joinCall]

/-! ### The formula-copy marker -/

theorem scanLoop_copy (eval : GoString → Int → Int → Outcome Evaluation) (table : Table)
    (row column : Int) :
    scanLoop eval table row column none "^^".toList ⟨[], 0, false, []⟩ =
      match cellAt table (row - 1) column with
      | none => .panic
      | some above =>
        match eval above.equation (row - 1) column with
        | .done (terms, err) => .next ⟨join terms err, 0, false, []⟩
        | .panic => .panic
        | .timeout => .timeout := by
  have h1 : scanStep eval table row column none '^' ⟨[], 0, false, []⟩ =
      .next ⟨['^'], 0, false, []⟩ := rfl
  have h2 : scanStep eval table row column (some '^') '^' ⟨['^'], 0, false, []⟩ =
      match cellAt table (row - 1) column with
      | none => .panic
      | some cell => joinCall (eval cell.equation (row - 1) column) ⟨['^'], 0, false, []⟩ [] :=
    rfl
  rw [show "^^".toList = ['^', '^'] from rfl, scanLoop, h1]
  simp only
  rw [scanLoop, h2]
  cases cellAt table (row - 1) column with
  | none => rfl
  | some above =>
    simp only
    cases eval above.equation (row - 1) column with
    | done r => obtain ⟨terms, err⟩ := r; simp [joinCall, scanLoop]
    | panic => rfl
    | timeout => rfl

/-- What `evaluateEquation` does with the formula `^^`. -/
theorem evaluateEquation_copy (fuel : Nat) (table : Table) (row column : Int) (cell : Cell)
    (hcell : cellAt table row column = some cell) (hev : cell.evaluated = false)
    (hne : cell.equation ≠ []) :
    evaluateEquation (fuel + 1) table "^^".toList row column =
      match cellAt table (row - 1) column with
      | none => .panic
      | some above =>
        match evaluateEquation fuel table above.equation (row - 1) column with
        | .done (terms, err) => .done (finish ⟨join terms err, 0, false, []⟩, [])
        | .panic => .panic
        | .timeout => .timeout := by
  rw [evaluateEquation, hcell]
  simp only [hev, hne, Bool.false_eq_true, or_self, if_false]
  rw [scanLoop_copy]
  cases cellAt table (row - 1) column with
  | none => rfl
  | some above =>
    simp only
    cases evaluateEquation fuel table above.equation (row - 1) column with
    | done r => rfl
    | panic => rfl
    | timeout => rfl

theorem finish_single (v : GoString) (h : ',' ∉ v) : finish ⟨v, 0, false, []⟩ = [v] := by
  by_cases hv : v = []
  · subst hv; rfl
  · rw [finish_nocomma _ hv (fun c hc e => h (e ▸ hc))]
    rfl

theorem sum_rows_open (eval : GoString → Int → Int → Outcome Evaluation) (table : Table)
    (row column : Int) :
    scanLoop eval table row column none "sum(A1,A2)".toList ⟨[], 0, false, []⟩ =
      scanLoop eval table row column (some 'A') "1,A2)".toList
        ⟨"sum(A".toList, 1, false, []⟩ := by
  rfl

/-- The formula `sum(A1,A2)` over two literal cells of digits. -/
theorem evaluateEquation_sum_rows (fuel : Nat) (table : Table) (row column : Int)
    (cell a1 a2 : Cell)
    (ha1 : cellAt table 0 0 = some a1) (hl1 : a1.equation = []) (hd1 : isDigits a1.value = true)
    (ha2 : cellAt table 1 0 = some a2) (hl2 : a2.equation = []) (hd2 : isDigits a2.value = true)
    (hcell : cellAt table row column = some cell) (hev : cell.evaluated = false)
    (hne : cell.equation ≠ []) :
    evaluateEquation (fuel + 2) table "sum(A1,A2)".toList row column =
      .done ([Nat.toDigits 10 (digitsValue a1.value + digitsValue a2.value)], []) := by
  have hterms : ∀ t ∈ [a1.value, a2.value], isDigits t = true := by
    intro t ht
    rcases List.mem_cons.mp ht with rfl | ht
    · exact hd1
    · rw [List.mem_singleton.mp ht]; exact hd2
  rw [evaluateEquation, hcell]
  simp only [hev, hne, Bool.false_eq_true, or_self, if_false]
  rw [sum_rows_open]
  rw [show "1,A2)".toList = '1' :: ',' :: 'A' :: '2' :: [')'] from rfl, scanLoop,
    scanStep_reference _ table row column 'A' '1' _ (by decide) rfl (by decide) (by decide)]
  simp only [show getColumnIndex (byteString 'A') = some 0 from by decide,
    show atoi (byteString (byteSub '1' 1)) = 0 from by decide, ha1, hl1,
    evaluateEquation_of_literal fuel table [] 0 0 a1 ha1 hl1, joinCall, join,
    take_length_sub_two "sum(".toList 'A' '1']
  rw [scanLoop, scanStep_comma_inner _ table row column _ _ (by simp) rfl]
  simp only
  rw [scanLoop, scanStep_plain _ table row column _ 'A' _ (by decide) (by decide) (by decide)
    (by decide) (by decide) (by decide) (by decide) (by decide)]
  simp only
  rw [scanLoop, scanStep_reference _ table row column 'A' '2' _ (by decide) rfl (by simp)
    (by decide)]
  simp only [show getColumnIndex (byteString 'A') = some 0 from by decide,
    show atoi (byteString (byteSub '2' 1)) = 1 from by decide, ha2, hl2,
    evaluateEquation_of_literal fuel table [] 1 0 a2 ha2 hl2, joinCall, join,
    take_length_sub_two]
  rw [scanLoop, scanStep_close _ table row column _ _ "sum".toList
    (join [a1.value, a2.value] [',']) rfl rfl (by simp [join]) (by decide)]
  rw [evaluateEquation_terms fuel table row column cell hcell hev hne _ _ hterms]
  have happ : applyFunction "sum".toList [a1.value, a2.value]
      = some (evaluateSum [a1.value, a2.value]) := by
    rfl
  simp only [happ, show ¬ (([] : GoString) = errorValue) from by decide, if_false, scanLoop,
    evaluateSum_two_digits _ _ hd1 hd2]
  have hd := toDigits_isDigits (digitsValue a1.value + digitsValue a2.value)
  rw [finish_nocomma _ (isDigits_ne_nil hd) (isDigits_no_comma hd)]
  rfl

/-! ### The results of `evaluateEquation` -/

theorem cellAt_nat (table : Table) (i j : Nat) :
    cellAt table (i : Int) (j : Int) = (table[i]?).bind (fun cells => cells[j]?) := by
  unfold cellAt index
  rw [if_neg (Int.not_ofNat_neg i)]
  simp only [Int.toNat_ofNat]
  cases h : table[i]? with
  | none => rfl
  | some cells =>
    simp only [Option.some_bind]
    rw [if_neg (Int.not_ofNat_neg j)]

theorem setCell_length (table : Table) (i j : Nat) (f : Cell → Cell) :
    (setCell table i j f).length = table.length := by
  unfold setCell
  cases table[i]? with
  | none => rfl
  | some cells =>
    simp only
    cases cells[j]? with
    | none => rfl
    | some cell => simp

theorem setCell_row_length (table : Table) (i j : Nat) (f : Cell → Cell) (k : Nat) :
    ((setCell table i j f).getD k []).length = (table.getD k []).length := by
  unfold setCell
  cases h : table[i]? with
  | none => rfl
  | some cells =>
    simp only
    cases h2 : cells[j]? with
    | none => rfl
    | some cell =>
      simp only [List.getD_eq_getElem?_getD, List.getElem?_set]
      by_cases hik : i = k
      · subst hik
        have hlt : i < table.length := by
          rcases List.getElem?_eq_some_iff.mp h with ⟨hlt, _⟩
          exact hlt
        simp [hlt, h]
      · simp [hik]

theorem setCell_cellAt (table : Table) (i j : Nat) (f : Cell → Cell) (k l : Nat) :
    cellAt (setCell table i j f) k l =
      if k = i ∧ l = j then (cellAt table i j).map f else cellAt table k l := by
  simp only [cellAt_nat]
  unfold setCell
  cases h : table[i]? with
  | none =>
    simp only
    split_ifs with hc
    · rw [hc.1, h]; rfl
    · rfl
  | some cells =>
    simp only
    have hlt : i < table.length := by
      rcases List.getElem?_eq_some_iff.mp h with ⟨hlt, _⟩
      exact hlt
    cases h2 : cells[j]? with
    | none =>
      simp only
      split_ifs with hc
      · rw [hc.1, hc.2, h]; simp [h2]
      · rfl
    | some cell =>
      simp only [List.getElem?_set]
      have hjlt : j < cells.length := by
        rcases List.getElem?_eq_some_iff.mp h2 with ⟨hjlt, _⟩
        exact hjlt
      by_cases hik : i = k
      · subst hik
        by_cases hjl : j = l
        · subst hjl
          simp [hlt, hjlt, h, h2, List.getElem?_set]
        · have hlj : ¬ l = j := fun e => hjl e.symm
          simp [hlt, h, hjl, hlj, List.getElem?_set]
      · have hki : ¬ k = i := fun e => hik e.symm
        simp [hik, hki]

theorem set_self {α : Type} (xs : List α) (i : Nat) (a : α) (h : xs[i]? = some a) :
    xs.set i a = xs := by
  apply List.ext_getElem?
  intro k
  rw [List.getElem?_set]
  split_ifs with h1 h2
  · rw [← h1, h]
  · rw [← h1, List.getElem?_eq_none (by omega)]
  · rfl

theorem setCell_self (table : Table) (i j : Nat) (f : Cell → Cell) (cell : Cell)
    (hc : cellAt table i j = some cell) (hf : f cell = cell) : setCell table i j f = table := by
  rw [cellAt_nat] at hc
  unfold setCell
  cases h : table[i]? with
  | none => rfl
  | some cells =>
    rw [h] at hc
    simp only [Option.some_bind] at hc
    simp only [hc, hf]
    rw [set_self cells j cell hc, set_self table i cells h]

/-- What one turn of the inner loop of `evaluateTable` does to the table: an assignment
to the cell, which marks it evaluated. -/
theorem evaluateCell_done (fuel : Nat) (table table2 : Table) (i j : Nat)
    (h : evaluateCell fuel table i j = .done table2) :
    ∃ f : Cell → Cell, table2 = setCell table i j f ∧ (∀ c, (f c).evaluated = true) ∧
      ∃ cell, cellAt table i j = some cell := by
  unfold evaluateCell at h
  cases hc : cellAt table i j with
  | none => rw [hc] at h; cases h
  | some cell =>
    rw [hc] at h
    simp only at h
    split_ifs at h with he
    · split at h
      · cases h
      · cases h
      · split_ifs at h with herr
        · cases h
          exact ⟨_, rfl, fun _ => rfl, cell, rfl⟩
        · split at h
          · cases h
          · cases h
            exact ⟨_, rfl, fun _ => rfl, cell, rfl⟩
    · cases h
      exact ⟨_, rfl, fun _ => rfl, cell, rfl⟩

theorem evaluateCell_keeps (fuel : Nat) (table table2 : Table) (i j : Nat)
    (h : evaluateCell fuel table i j = .done table2) :
    table2.length = table.length ∧
      (∀ k, (table2.getD k []).length = (table.getD k []).length) ∧
      (∀ k l, evaluatedAt table k l = true → evaluatedAt table2 k l = true) ∧
      evaluatedAt table2 i j = true := by
  obtain ⟨f, rfl, hf, cell, hcell⟩ := evaluateCell_done fuel table table2 i j h
  refine ⟨setCell_length _ _ _ _, setCell_row_length _ _ _ _, ?_, ?_⟩
  · intro k l hkl
    unfold evaluatedAt at hkl ⊢
    rw [setCell_cellAt]
    split_ifs with hc
    · rw [hcell]; exact hf cell
    · exact hkl
  · unfold evaluatedAt
    rw [setCell_cellAt, if_pos ⟨rfl, rfl⟩, hcell]
    exact hf cell

theorem evaluateRow_keeps (fuel : Nat) (i : Nat) :
    ∀ (js : List Nat) (table table2 : Table), evaluateRow fuel i js table = .done table2 →
      table2.length = table.length ∧
      (∀ k, (table2.getD k []).length = (table.getD k []).length) ∧
      (∀ k l, evaluatedAt table k l = true → evaluatedAt table2 k l = true) ∧
      ∀ j ∈ js, evaluatedAt table2 i j = true := by
  intro js
  induction js with
  | nil =>
    intro table table2 h
    cases h
    exact ⟨rfl, fun _ => rfl, fun _ _ h => h, by simp⟩
  | cons j js ih =>
    intro table table2 h
    rw [evaluateRow] at h
    cases hc : evaluateCell fuel table i j with
    | done table1 =>
      rw [hc] at h
      obtain ⟨h1, h2, h3, h4⟩ := evaluateCell_keeps fuel table table1 i j hc
      obtain ⟨g1, g2, g3, g4⟩ := ih table1 table2 h
      refine ⟨g1.trans h1, fun k => (g2 k).trans (h2 k), fun k l hkl => g3 k l (h3 k l hkl), ?_⟩
      intro l hl
      rcases List.mem_cons.mp hl with rfl | hl
      · exact g3 i l h4
      · exact g4 l hl
    | panic => rw [hc] at h; cases h
    | timeout => rw [hc] at h; cases h

theorem evaluateRows_keeps (fuel : Nat) :
    ∀ (is : List Nat) (table table2 : Table), evaluateRows fuel is table = .done table2 →
      table2.length = table.length ∧
      (∀ k, (table2.getD k []).length = (table.getD k []).length) ∧
      (∀ k l, evaluatedAt table k l = true → evaluatedAt table2 k l = true) ∧
      ∀ i ∈ is, ∀ j, j < (table.getD i []).length → evaluatedAt table2 i j = true := by
  intro is
  induction is with
  | nil =>
    intro table table2 h
    cases h
    exact ⟨rfl, fun _ => rfl, fun _ _ h => h, by simp⟩
  | cons i is ih =>
    intro table table2 h
    rw [evaluateRows] at h
    cases hc : evaluateRow fuel i (List.range (table.getD i []).length) table with
    | done table1 =>
      rw [hc] at h
      obtain ⟨h1, h2, h3, h4⟩ := evaluateRow_keeps fuel i _ table table1 hc
      obtain ⟨g1, g2, g3, g4⟩ := ih table1 table2 h
      refine ⟨g1.trans h1, fun k => (g2 k).trans (h2 k), fun k l hkl => g3 k l (h3 k l hkl), ?_⟩
      intro k hk l hl
      rcases List.mem_cons.mp hk with rfl | hk
      · exact g3 k l (h4 l (List.mem_range.mpr hl))
      · exact g4 k hk l (by rw [h2 k]; exact hl)
    | panic => rw [hc] at h; cases h
    | timeout => rw [hc] at h; cases h

theorem cellAt_of_mem (table : Table) (cells : List Cell) (cell : Cell)
    (hr : cells ∈ table) (hc : cell ∈ cells) :
    ∃ i j, i < table.length ∧ j < (table.getD i []).length ∧ cellAt table i j = some cell := by
  obtain ⟨i, hi, hti⟩ := List.getElem_of_mem hr
  obtain ⟨j, hj, hcj⟩ := List.getElem_of_mem hc
  refine ⟨i, j, hi, ?_, ?_⟩
  · simp [List.getD_eq_getElem?_getD, List.getElem?_eq_getElem hi, hti, hj]
  · rw [cellAt_nat, List.getElem?_eq_getElem hi, hti]
    simp [List.getElem?_eq_getElem hj, hcj]

theorem cellAt_of_lt (table : Table) (i j : Nat) (hj : j < (table.getD i []).length) :
    ∃ cells cell, cells ∈ table ∧ cell ∈ cells ∧ cellAt table i j = some cell := by
  rw [List.getD_eq_getElem?_getD] at hj
  cases h : table[i]? with
  | none => rw [h] at hj; simp at hj
  | some cells =>
    rw [h] at hj
    simp only [Option.getD_some] at hj
    refine ⟨cells, cells[j], List.getElem?_mem h, List.getElem_mem _, ?_⟩
    rw [cellAt_nat, h]
    simp [List.getElem?_eq_getElem hj]

/-- A cell that is marked evaluated is left as it is by a turn of the inner loop. -/
theorem evaluateCell_fixed (fuel : Nat) (table : Table) (i j : Nat) (cell : Cell)
    (hc : cellAt table i j = some cell) (he : cell.evaluated = true) :
    evaluateCell (fuel + 1) table i j = .done table := by
  have hcell : ({ cell with evaluated := true } : Cell) = cell := by
    cases cell
    simp only at he
    simp [he]
  unfold evaluateCell
  rw [hc]
  simp only
  split_ifs with hq
  · rw [evaluateEquation, hc]
    simp only [he, true_or, if_true]
    rw [if_neg (by decide)]
    have hi : index [cell.value] 0 = some cell.value := by simp [index]
    rw [hi]
    simp only
    rw [setCell_self table i j _ cell hc]
    cases cell
    simp only at he
    simp [he]
  · rw [setCell_self table i j _ cell hc hcell]

theorem evaluateRow_fixed (fuel : Nat) (table : Table) (i : Nat) :
    ∀ js : List Nat, (∀ j ∈ js, ∃ cell, cellAt table i j = some cell ∧ cell.evaluated = true) →
      evaluateRow (fuel + 1) i js table = .done table := by
  intro js
  induction js with
  | nil => intro _; rfl
  | cons j js ih =>
    intro h
    obtain ⟨cell, hc, he⟩ := h j (List.mem_cons_self _ _)
    rw [evaluateRow, evaluateCell_fixed fuel table i j cell hc he]
    exact ih (fun l hl => h l (List.mem_cons_of_mem _ hl))

theorem evaluateRows_fixed (fuel : Nat) (table : Table)
    (h : ∀ cells ∈ table, ∀ cell ∈ cells, cell.evaluated = true) :
    ∀ is : List Nat, evaluateRows (fuel + 1) is table = .done table := by
  intro is
  induction is with
  | nil => rfl
  | cons i is ih =>
    rw [evaluateRows, evaluateRow_fixed fuel table i]
    · exact ih
    · intro j hj
      obtain ⟨cells, cell, h1, h2, h3⟩ := cellAt_of_lt table i j (List.mem_range.mp hj)
      exact ⟨cell, h3, h cells h1 cell h2⟩

/-! ### Function names -/

theorem scanStep_name (eval : GoString → Int → Int → Outcome Evaluation)
    (table : Table) (row column : Int) (before : Option Char) (c : Char) (s : Scan)
    (h : isNameByte c = true) :
    scanStep eval table row column before c s = .next { s with stack := s.stack ++ [c] } := by
  simp only [isNameByte, Bool.and_eq_true, decide_eq_true_eq, Bool.not_eq_true'] at h
  obtain ⟨⟨⟨⟨⟨⟨⟨h8, h7⟩, h1⟩, h2⟩, h3⟩, h4⟩, h5⟩, h6⟩ := h
  exact scanStep_plain eval table row column before c s h1 h2 h3 h4 h5 h6 h7
    (by simp [byteString, h8])

theorem scanLoop_name (eval : GoString → Int → Int → Outcome Evaluation) (table : Table)
    (row column : Int) (xs rest : GoString) :
    ∀ (before : Option Char) (s : Scan), (∀ c ∈ xs, isNameByte c = true) →
      scanLoop eval table row column before (xs ++ rest) s =
        scanLoop eval table row column (lastBefore before xs) rest
          { s with stack := s.stack ++ xs } := by
  induction xs with
  | nil => intro before s _; simp [lastBefore]
  | cons x xs ih =>
    intro before s hx
    rw [List.cons_append, scanLoop,
      scanStep_name eval table row column before x s (hx x (List.mem_cons_self _ _))]
    simp only
    rw [ih (some x) { s with stack := s.stack ++ [x] }
      (fun c hc => hx c (List.mem_cons_of_mem _ hc))]
    simp [lastBefore_cons before]

theorem scanStep_open (eval : GoString → Int → Int → Outcome Evaluation)
    (table : Table) (row column : Int) (before : Option Char) (s : Scan)
    (hq : s.quote = false) :
    scanStep eval table row column before '(' s =
      .next { s with stack := s.stack ++ ['('], parentheses := s.parentheses + 1 } := by
  unfold scanStep
  rw [show byteString '(' = ['('] from by decide]
  simp only [hq, and_self, if_true]

theorem applyFunction_unknown (stack : GoString) (evaluationResults : List GoString)
    (h : endsWithFunction stack = false) :
    applyFunction stack evaluationResults = some stack := by
  simp only [endsWithFunction, Bool.or_eq_false_iff] at h
  obtain ⟨⟨⟨⟨⟨h1, h2⟩, h3⟩, h4⟩, h5⟩, h6⟩ := h
  unfold applyFunction
  simp only [h1, h2, h3, h4, h5, h6, Bool.false_eq_true, if_false]

/-! ## The claims -/

/-- C1: when the cells `A1` (row 0, column 0) and `B1` (row 0, column 1) are literal cells
holding texts of decimal digits, `evaluateEquation` on an unevaluated formula cell with
the formula `sum(A1, B1)` returns, with no error, the single term that is the decimal
text of the sum of the two numbers. -/
theorem evaluateEquation_sum (fuel : Nat) (table : Table) (row column : Int)
    (cell a1 b1 : Cell)
    (ha1 : cellAt table 0 0 = some a1) (hla : a1.equation = []) (hda : isDigits a1.value = true)
    (hb1 : cellAt table 0 1 = some b1) (hlb : b1.equation = []) (hdb : isDigits b1.value = true)
    (hcell : cellAt table row column = some cell) (hev : cell.evaluated = false)
    (heq : cell.equation = "sum(A1, B1)".toList) :
    evaluateEquation (fuel + 2) table cell.equation row column =
      .done ([Nat.toDigits 10 (digitsValue a1.value + digitsValue b1.value)], []) := by
  have heq2 : cell.equation ≠ [] := by rw [heq]; decide
  have hterms : ∀ t ∈ [a1.value, b1.value], isDigits t = true := by
    intro t ht
    rcases List.mem_cons.mp ht with rfl | ht
    · exact hda
    · rw [List.mem_singleton.mp ht]; exact hdb
  rw [evaluateEquation, hcell]
  simp only [hev, heq2, Bool.false_eq_true, or_self, if_false]
  rw [heq, sum_open]
  -- the reference `A1`
  rw [show "1, B1)".toList = '1' :: ',' :: ' ' :: 'B' :: '1' :: [')'] from rfl, scanLoop,
    scanStep_reference _ table row column 'A' '1' _ (by decide) rfl (by decide) (by decide)]
  simp only [show getColumnIndex (byteString 'A') = some 0 from by decide,
    show atoi (byteString (byteSub '1' 1)) = 0 from by decide, ha1, hla,
    evaluateEquation_of_literal fuel table [] 0 0 a1 ha1 hla, joinCall, join,
    take_length_sub_two "sum(".toList 'A' '1']
  -- the comma and the space inside the parentheses
  rw [scanLoop, scanStep_comma_inner _ table row column _ _ (by simp) rfl]
  simp only
  rw [scanLoop, scanStep_space _ table row column _ _ rfl]
  simp only
  -- the reference `B1`
  rw [scanLoop, scanStep_plain _ table row column _ 'B' _ (by decide) (by decide) (by decide)
    (by decide) (by decide) (by decide) (by decide) (by decide)]
  simp only
  rw [scanLoop, scanStep_reference _ table row column 'B' '1' _ (by decide) rfl (by simp)
    (by decide)]
  simp only [show getColumnIndex (byteString 'B') = some 1 from by decide,
    show atoi (byteString (byteSub '1' 1)) = 0 from by decide, hb1, hlb,
    evaluateEquation_of_literal fuel table [] 0 1 b1 hb1 hlb, joinCall, join,
    take_length_sub_two]
  -- the closing parenthesis
  rw [scanLoop, scanStep_close _ table row column _ _ "sum".toList
    (join [a1.value, b1.value] [',']) rfl rfl (by simp [join]) (by decide)]
  rw [evaluateEquation_terms fuel table row column cell hcell hev heq2 _ _ hterms]
  have happ : applyFunction "sum".toList [a1.value, b1.value]
      = some (evaluateSum [a1.value, b1.value]) := by
    rfl
  simp only [happ, show ¬ (([] : GoString) = errorValue) from by decide, if_false, scanLoop,
    evaluateSum_two_digits _ _ hda hdb]
  have hd := toDigits_isDigits (digitsValue a1.value + digitsValue b1.value)
  rw [finish_nocomma _ (isDigits_ne_nil hd) (isDigits_no_comma hd)]
  rfl

/-- Witness of C1: `A1 = 2`, `B1 = 3` and `C1 = "=sum(A1, B1)"` give `["5"]`. -/
theorem evaluateEquation_sum_witness :
    evaluateEquation 2 sumTable "sum(A1, B1)".toList 0 2 = .done (["5".toList], []) :=
  (evaluateEquation_sum 0 sumTable 0 2 ⟨[], "sum(A1, B1)".toList, 2, 0, false⟩
    ⟨"2".toList, [], 0, 0, false⟩ ⟨"3".toList, [], 1, 0, false⟩
    rfl rfl (by decide) rfl rfl (by decide) rfl rfl rfl).trans (by decide)

/-- C2: on an in-bounds literal cell (a cell whose equation is empty) `evaluateEquation`
returns the one-element list of the cell's value and the empty error string, whatever
equation text is passed; the call reads the table and writes nothing, so a second call,
with any equation text, returns the same result. -/
theorem evaluateEquation_literal (table : Table) (row column : Int) (cell : Cell)
    (hcell : cellAt table row column = some cell) (hlit : cell.equation = [])
    (fuel fuel2 : Nat) (equation equation2 : GoString) :
    evaluateEquation (fuel + 1) table equation row column = .done ([cell.value], []) ∧
    evaluateEquation (fuel2 + 1) table equation2 row column =
      evaluateEquation (fuel + 1) table equation row column := by
  simp [evaluateEquation, hcell, hlit]

/-- Witness of C2: the literal cell `7` of a one-cell table, asked with the texts `sum(`
and `)`. -/
theorem evaluateEquation_literal_witness :
    evaluateEquation 1 [[⟨"7".toList, [], 0, 0, false⟩]] "sum(".toList 0 0
        = .done (["7".toList], []) ∧
    evaluateEquation 1 [[⟨"7".toList, [], 0, 0, false⟩]] ")".toList 0 0 =
      evaluateEquation 1 [[⟨"7".toList, [], 0, 0, false⟩]] "sum(".toList 0 0 :=
  evaluateEquation_literal [[⟨"7".toList, [], 0, 0, false⟩]] 0 0
    ⟨"7".toList, [], 0, 0, false⟩ (by decide) rfl 0 0 "sum(".toList ")".toList

/-- C3: on arguments none of which is `"#ERROR"` and each of which is a string literal
or does not both begin and end with a double quote, `evaluateConcat` returns, when
every argument is a string literal, a double quote, the interiors joined with no
separator and with every double quote among their bytes left out, and a double quote;
when some argument is not a string literal it returns
`"#CANNOT_CONCATENATE_NON_STRING"`. -/
theorem evaluateConcat_spec (parameters : List GoString)
    (hne : errorValue ∉ parameters)
    (hshape : ∀ p ∈ parameters, isStringLiteral p = true ∨
      ¬ (hasPrefix p ['"'] = true ∧ hasSuffix p ['"'] = true)) :
    ((∀ p ∈ parameters, isStringLiteral p = true) →
      evaluateConcat parameters =
        some (('"' :: (parameters.map interior).flatten.filter (fun c => c != '"')) ++ ['"'])) ∧
    ((∃ p ∈ parameters, isStringLiteral p = false) →
      evaluateConcat parameters = some cannotConcatenate) := by
  have h := concatLoop_spec parameters [] hne hshape
  constructor
  · intro hall
    have : parameters.all isStringLiteral = true := List.all_eq_true.mpr hall
    rw [evaluateConcat, h, if_pos this, removeByte_eq, List.nil_append, join_empty]
  · rintro ⟨p, hp, hpl⟩
    have : ¬ (parameters.all isStringLiteral = true) := by
      intro hall
      have := List.all_eq_true.mp hall p hp
      simp [hpl] at this
    rw [evaluateConcat, h, if_neg this]

/-- Witness of C3: `["\"a\"", "\"b\"", "\"c\""]` gives `"\"abc\""`, the arguments
`"a"b"` and `""c"` with a double quote inside give `"\"abc\""` too, and `["\"a\"", "5"]`
gives `"#CANNOT_CONCATENATE_NON_STRING"`. -/
theorem evaluateConcat_spec_witness :
    evaluateConcat ["\"a\"".toList, "\"b\"".toList, "\"c\"".toList]
      = some "\"abc\"".toList ∧
    evaluateConcat ["\"a\"b\"".toList, "\"\"c\"".toList] = some "\"abc\"".toList ∧
    evaluateConcat ["\"a\"".toList, "5".toList] = some cannotConcatenate :=
  ⟨((evaluateConcat_spec ["\"a\"".toList, "\"b\"".toList, "\"c\"".toList]
      (by decide) (by decide)).1 (by decide)).trans (by decide),
    ((evaluateConcat_spec ["\"a\"b\"".toList, "\"\"c\"".toList]
      (by decide) (by decide)).1 (by decide)).trans (by decide),
    (evaluateConcat_spec ["\"a\"".toList, "5".toList] (by decide) (by decide)).2
      ⟨"5".toList, by decide, by decide⟩⟩

/-- C4: on every list of arguments each of which is a valid decimal literal (optional
sign, digits, optional fractional part) `evaluateSum` returns the canonical decimal text
of the exact rational sum of the arguments: the result is a canonical decimal text, its
value is the sum of the values of the arguments, and it is the only canonical text with
that value. -/
theorem evaluateSum_exact (parameters : List GoString)
    (h : ∀ a ∈ parameters, isDecimalLiteral a = true) :
    isCanonical (evaluateSum parameters) = true ∧
      literalValue (evaluateSum parameters) = (parameters.map literalValue).sum ∧
      ∀ t : GoString, isCanonical t = true →
        literalValue t = (parameters.map literalValue).sum → evaluateSum parameters = t := by
  obtain ⟨d, hd, hval⟩ := sumLoop_exact parameters Decimal.Zero h
  have hsum : literalValue (evaluateSum parameters) = (parameters.map literalValue).sum := by
    rw [evaluateSum, hd, (String_canonical d).2, hval]
    simp [Decimal.toRat, Decimal.Zero]
  have hcan : isCanonical (evaluateSum parameters) = true := by
    rw [evaluateSum, hd]
    exact (String_canonical d).1
  exact ⟨hcan, hsum, fun t ht hv => isCanonical_unique _ t hcan ht (hsum.trans hv.symm)⟩

/-- Witness of C4: `["1", "2", "3"]` gives `"6"` and `["0.1", "0.2"]` gives exactly
`"0.3"`. -/
theorem evaluateSum_exact_witness :
    evaluateSum ["1".toList, "2".toList, "3".toList] = "6".toList ∧
    evaluateSum ["0.1".toList, "0.2".toList] = "0.3".toList ∧
    isCanonical (evaluateSum ["0.1".toList, "0.2".toList]) = true ∧
    literalValue (evaluateSum ["0.1".toList, "0.2".toList]) =
      (["0.1".toList, "0.2".toList].map literalValue).sum :=
  ⟨by decide, by decide,
    (evaluateSum_exact ["0.1".toList, "0.2".toList] (by decide)).1,
    (evaluateSum_exact ["0.1".toList, "0.2".toList] (by decide)).2.1⟩

/-- C5: for every non-empty list of non-empty texts of decimal digits,
`evaluateEquation` on an unevaluated formula cell with the formula `spread(a1,...,an)`
returns exactly the list `[a1, ..., an]` with no error. -/
theorem evaluateEquation_spread (fuel : Nat) (table : Table) (row column : Int) (cell : Cell)
    (args : List GoString)
    (hcell : cellAt table row column = some cell) (hev : cell.evaluated = false)
    (heq : cell.equation = "spread(".toList ++ join args [','] ++ ")".toList)
    (hne : args ≠ []) (hargs : ∀ t ∈ args, isDigits t = true) :
    evaluateEquation (fuel + 2) table cell.equation row column = .done (args, []) := by
  obtain ⟨a, rest, rfl⟩ := List.exists_cons_of_ne_nil hne
  have heq2 : cell.equation ≠ [] := by rw [heq]; simp
  rw [evaluateEquation, hcell]
  simp only [hev, heq2, Bool.false_eq_true, or_self, if_false]
  rw [heq, List.append_assoc, spread_open]
  rw [scanLoop_inert _ table row column _ _ (some '(') _ (join_inert rest a 1 (by decide) hargs)
    rfl (Or.inr ⟨'(', rfl, by decide⟩)]
  rw [show ")".toList = [')'] from rfl, scanLoop]
  rw [scanStep_close _ table row column _ _ "spread".toList (join (a :: rest) [',']) rfl rfl rfl
    (by decide)]
  rw [evaluateEquation_terms fuel table row column cell hcell hev heq2 a rest hargs]
  have happ : applyFunction "spread".toList (a :: rest) = some (join (a :: rest) [',']) := by
    rfl
  simp only [happ, show ¬ (([] : GoString) = errorValue) from by decide, if_false, scanLoop]
  rw [finish_join a rest [] hargs]
  simp

/-- Witness of C5: `spread(1,2,3)` gives `["1", "2", "3"]`, and `sum(spread(1,2,3))`
and `sum(1,2,3)` both give `["6"]`. -/
theorem evaluateEquation_spread_witness :
    evaluateEquation 2 spreadTable "spread(1,2,3)".toList 0 0 =
      .done (["1".toList, "2".toList, "3".toList], []) ∧
    evaluateEquation 3 spreadTable "sum(spread(1,2,3))".toList 0 0 =
      .done (["6".toList], []) ∧
    evaluateEquation 3 spreadTable "sum(1,2,3)".toList 0 0 = .done (["6".toList], []) :=
  ⟨evaluateEquation_spread 0 spreadTable 0 0 ⟨[], "spread(1,2,3)".toList, 0, 0, false⟩
    ["1".toList, "2".toList, "3".toList] rfl rfl rfl (by decide) (by decide),
    by decide, by decide⟩

/-- C6 (the code at the failing input): the formula `"a,b"`, one string literal with a
comma inside, comes out as the two terms `"a` and `b"`: the second loop of
`evaluateEquation` cuts at the comma although it stands between the quotes. -/
theorem evaluateEquation_quoted_comma :
    evaluateEquation 1 quotedCommaTable "\"a,b\"".toList 0 0
      = .done (["\"a".toList, "b\"".toList], []) := by
  decide

/-- C7 as stated fails: with `A1 = 7`, the formula `A 1` evaluates to the text `A1` and
the same formula without its space, `A1`, evaluates to `7`. -/
theorem evaluateEquation_spaced_reference :
    stripSpaces false "A 1".toList = "A1".toList ∧
    evaluateEquation 2 spacedReferenceTable "A 1".toList 0 1 = .done (["A1".toList], []) ∧
    evaluateEquation 2 spacedReferenceTable (stripSpaces false "A 1".toList) 0 1
      = .done (["7".toList], []) ∧
    evaluateEquation 2 spacedReferenceTable "A 1".toList 0 1 ≠
      evaluateEquation 2 spacedReferenceTable (stripSpaces false "A 1".toList) 0 1 := by
  decide

/-- C7 (amended): for every table, cell and formula text in which no digit outside the
double-quoted strings follows a letter with only spaces (one or more) in between,
`evaluateEquation` returns the same result on the text and on the text with every space
outside the double-quoted strings removed. -/
theorem evaluateEquation_strip (fuel : Nat) (table : Table) (e : GoString) (row column : Int)
    (h : spacedReference false none false e = false) :
    evaluateEquation fuel table e row column =
      evaluateEquation fuel table (stripSpaces false e) row column := by
  cases fuel with
  | zero => rfl
  | succ fuel =>
    simp only [evaluateEquation]
    rw [scanLoop_strip (evaluateEquation fuel table) table row column e ⟨[], 0, false, []⟩
      none none false (fun _ => rfl) (fun h => by cases h) (fun _ => rfl) h]

/-- Witness of C7 (amended): `sum( 1 , 2 )` and `sum(1,2)` evaluate to the same thing. -/
theorem evaluateEquation_strip_witness :
    stripSpaces false "sum( 1 , 2 )".toList = "sum(1,2)".toList ∧
    evaluateEquation 2 spacedSumTable "sum( 1 , 2 )".toList 0 0 =
      evaluateEquation 2 spacedSumTable (stripSpaces false "sum( 1 , 2 )".toList) 0 0 :=
  ⟨by decide, evaluateEquation_strip 2 spacedSumTable "sum( 1 , 2 )".toList 0 0 (by decide)⟩

/-- C8 (the code at the failing input): with `A1 = "=B1"` and `B1 = "=)"`,
`evaluateTable` leaves `A1` with the empty value, not with `"#ERROR"`; only `B1` ends
as `"#ERROR"`. -/
theorem evaluateTable_forward_error :
    evaluateTable 2 forwardErrorTable =
      .done [[⟨[], "B1".toList, 0, 0, true⟩, ⟨"#ERROR".toList, ")".toList, 1, 0, true⟩]] := by
  decide

/-- C9 as stated fails: `evaluateSum(["1", "#CANNOT_CONCATENATE_NON_STRING"])` is `"1"`,
not the error value. -/
theorem evaluateSum_cannotConcatenate :
    evaluateSum ["1".toList, cannotConcatenate] = "1".toList ∧
    evaluateSum ["1".toList, cannotConcatenate] ≠ cannotConcatenate := by
  decide

/-- C9 (amended): `evaluateSum` propagates the error value `"#ERROR"` and no other: on
every argument list that contains `"#ERROR"` it returns `"#ERROR"`, and on every other
argument list it returns a canonical decimal text, never
`"#CANNOT_CONCATENATE_NON_STRING"`. -/
theorem evaluateSum_propagates_error (parameters : List GoString) :
    (errorValue ∈ parameters → evaluateSum parameters = errorValue) ∧
    (errorValue ∉ parameters →
      isCanonical (evaluateSum parameters) = true ∧
        evaluateSum parameters ≠ cannotConcatenate) := by
  refine ⟨sumLoop_error parameters Decimal.Zero, ?_⟩
  intro h
  obtain ⟨d, hd⟩ := sumLoop_number parameters Decimal.Zero h
  have hcan : isCanonical (evaluateSum parameters) = true := by
    rw [evaluateSum, hd]
    exact (String_canonical d).1
  refine ⟨hcan, ?_⟩
  intro he
  rw [he] at hcan
  revert hcan
  decide

/-- Witness of C9 (amended): `evaluateSum(["1", "#ERROR"])` is `"#ERROR"`, and
`evaluateSum(["1", "#CANNOT_CONCATENATE_NON_STRING"])` is a canonical decimal text. -/
theorem evaluateSum_propagates_error_witness :
    evaluateSum ["1".toList, "#ERROR".toList] = "#ERROR".toList ∧
    isCanonical (evaluateSum ["1".toList, cannotConcatenate]) = true :=
  ⟨(evaluateSum_propagates_error ["1".toList, "#ERROR".toList]).1 (by decide),
    ((evaluateSum_propagates_error ["1".toList, cannotConcatenate]).2 (by decide)).1⟩

/-- C10 (the code at the failing input): `text(A1)`, where `A1` is an evaluated cell
with the value `"#ERROR"`, evaluates with no error to the text `"#ERROR"` in double
quotes; so `evaluateTable` on the line `=)|=text(A1)` leaves `B1` with that text. -/
theorem evaluateEquation_text_of_error :
    evaluateEquation 2 textOfErrorTable "text(A1)".toList 0 1
      = .done (["\"#ERROR\"".toList], []) ∧
    evaluateTable 2 [[⟨[], ")".toList, 0, 0, false⟩, ⟨[], "text(A1)".toList, 1, 0, false⟩]]
      = .done [[⟨"#ERROR".toList, ")".toList, 0, 0, true⟩,
                ⟨"\"#ERROR\"".toList, "text(A1)".toList, 1, 0, true⟩]] := by
  decide

/-- C11 as stated fails: `evaluateSum(["1", "abc"])` is `"1"` and `evaluateSum(["\"a\""])`
is `"0"`, numbers and not error values. -/
theorem evaluateSum_non_numeric :
    isDecimalLiteral "abc".toList = false ∧
    isDecimalLiteral "\"a\"".toList = false ∧
    evaluateSum ["1".toList, "abc".toList] = "1".toList ∧
    evaluateSum ["\"a\"".toList] = "0".toList ∧
    evaluateSum ["1".toList, "abc".toList] ≠ errorValue ∧
    evaluateSum ["1".toList, "abc".toList] ≠ cannotConcatenate := by
  decide

/-- C11 (amended): `evaluateSum` does not reject a non-numeric argument. On every
argument list that does not contain `"#ERROR"` and in which each argument is a valid
decimal literal or holds a byte other than a digit, `+`, `-`, `.`, `e` and `E`, it
returns a number and not an error value: a canonical decimal text whose value is the
exact sum of the decimal literals among the arguments, every other argument counting
as zero, and the only canonical text with that value. -/
theorem evaluateSum_counts_zero (parameters : List GoString)
    (h : errorValue ∉ parameters)
    (hshape : ∀ p ∈ parameters, isDecimalLiteral p = true ∨ hasForeignByte p = true) :
    isCanonical (evaluateSum parameters) = true ∧
      literalValue (evaluateSum parameters) = (parameters.map argumentValue).sum ∧
      (∀ t : GoString, isCanonical t = true →
        literalValue t = (parameters.map argumentValue).sum → evaluateSum parameters = t) ∧
      evaluateSum parameters ≠ errorValue ∧ evaluateSum parameters ≠ cannotConcatenate := by
  obtain ⟨d, hd, hval⟩ := sumLoop_parsed parameters Decimal.Zero h
  have hmap : parameters.map parsedValue = parameters.map argumentValue :=
    List.map_congr_left (fun p hp => parsedValue_argument p (hshape p hp))
  have hcan : isCanonical (evaluateSum parameters) = true := by
    rw [evaluateSum, hd]
    exact (String_canonical d).1
  have hsum : literalValue (evaluateSum parameters) = (parameters.map argumentValue).sum := by
    rw [evaluateSum, hd, (String_canonical d).2, hval, hmap]
    simp [Decimal.toRat, Decimal.Zero]
  refine ⟨hcan, hsum, fun t ht hv => isCanonical_unique _ t hcan ht (hsum.trans hv.symm), ?_, ?_⟩
  · intro he
    rw [he] at hcan
    revert hcan
    decide
  · intro he
    rw [he] at hcan
    revert hcan
    decide

/-- Witness of C11 (amended): `["1", "abc"]` gives the number `"1"` and
`["0.5", "\"a\"", "2"]` gives `"2.5"`. -/
theorem evaluateSum_counts_zero_witness :
    evaluateSum ["1".toList, "abc".toList] = "1".toList ∧
    evaluateSum ["0.5".toList, "\"a\"".toList, "2".toList] = "2.5".toList ∧
    isCanonical (evaluateSum ["1".toList, "abc".toList]) = true ∧
    literalValue (evaluateSum ["1".toList, "abc".toList]) =
      (["1".toList, "abc".toList].map argumentValue).sum :=
  ⟨by decide, by decide,
    (evaluateSum_counts_zero ["1".toList, "abc".toList] (by decide) (by decide)).1,
    (evaluateSum_counts_zero ["1".toList, "abc".toList] (by decide) (by decide)).2.1⟩

/-- C12: for every grid and every unevaluated formula cell at (row, column) whose
formula is exactly `^^`, where the cell at (row - 1, column) exists (so that the row is
1 or more) and its evaluation yields the single term `v`, with no comma in it and no
error, `evaluateEquation` on the cell returns `[v]` with no error. -/
theorem evaluateEquation_copy_above (fuel : Nat) (table : Table) (row column : Int)
    (cell above : Cell) (v : GoString)
    (hcell : cellAt table row column = some cell) (hev : cell.evaluated = false)
    (heq : cell.equation = "^^".toList)
    (habove : cellAt table (row - 1) column = some above)
    (hv : evaluateEquation fuel table above.equation (row - 1) column = .done ([v], []))
    (hcomma : ',' ∉ v) :
    evaluateEquation (fuel + 1) table cell.equation row column = .done ([v], []) := by
  have hne : cell.equation ≠ [] := by rw [heq]; decide
  rw [heq, evaluateEquation_copy fuel table row column cell hcell hev hne, habove]
  simp only [hv, join, finish_single v hcomma]

/-- Witness of C12: under the literal cell `7`, the formula `^^` gives `["7"]`. -/
theorem evaluateEquation_copy_above_witness :
    evaluateEquation 2 copyTable "^^".toList 1 0 = .done (["7".toList], []) :=
  evaluateEquation_copy_above 1 copyTable 1 0 ⟨[], "^^".toList, 0, 1, false⟩
    ⟨"7".toList, [], 0, 0, false⟩ "7".toList rfl rfl rfl rfl (by decide) (by decide)

/-- C13 as stated fails: with `A1 = 1`, `A2 = 2`, `A3 = 3`, `B2 = "=sum(A1,A2)"` and
`B3 = "=^^"`, the cell `B3` evaluates to `3`, the value of `B2`, while the formula
`sum(A2,A3)` in its place evaluates to `5`; `evaluateTable` leaves `B3` with `3`. -/
theorem evaluateEquation_copy_no_shift :
    evaluateEquation 3 copySumTable "^^".toList 2 1 = .done (["3".toList], []) ∧
    evaluateEquation 3 copySumTable "sum(A2,A3)".toList 2 1 = .done (["5".toList], []) ∧
    evaluateTable 3 copySumTable = .done
      [[⟨"1".toList, [], 0, 0, true⟩, ⟨[], [], 1, 0, true⟩],
       [⟨"2".toList, [], 0, 1, true⟩, ⟨"3".toList, "sum(A1,A2)".toList, 1, 1, true⟩],
       [⟨"3".toList, [], 0, 2, true⟩, ⟨"3".toList, "^^".toList, 1, 2, true⟩]] := by
  decide

/-- C13 (amended): the formula-copy marker gives the result of the cell above, with no
row-relative shift.  When `A1` and `A2` are literal cells of digits, a cell in surface
row 2 holds the formula `sum(A1,A2)` and is not yet evaluated, or is evaluated with the
sum of `A1` and `A2` as its value, and the cell directly below it holds `^^` and is not
yet evaluated, evaluating the lower cell gives the decimal text of the sum of `A1` and
`A2`, whatever the cells of surface row 3 hold. -/
theorem evaluateEquation_copy_sum (fuel : Nat) (table : Table) (column : Int)
    (upper lower a1 a2 : Cell)
    (ha1 : cellAt table 0 0 = some a1) (hl1 : a1.equation = []) (hd1 : isDigits a1.value = true)
    (ha2 : cellAt table 1 0 = some a2) (hl2 : a2.equation = []) (hd2 : isDigits a2.value = true)
    (hupper : cellAt table 1 column = some upper)
    (huq : upper.equation = "sum(A1,A2)".toList)
    (hmemo : upper.evaluated = true →
      upper.value = Nat.toDigits 10 (digitsValue a1.value + digitsValue a2.value))
    (hlower : cellAt table 2 column = some lower) (hle : lower.evaluated = false)
    (hlq : lower.equation = "^^".toList) :
    evaluateEquation (fuel + 3) table lower.equation 2 column =
      .done ([Nat.toDigits 10 (digitsValue a1.value + digitsValue a2.value)], []) := by
  have hne : lower.equation ≠ [] := by rw [hlq]; decide
  have hne2 : upper.equation ≠ [] := by rw [huq]; decide
  have hd := toDigits_isDigits (digitsValue a1.value + digitsValue a2.value)
  have habove : evaluateEquation (fuel + 2) table "sum(A1,A2)".toList 1 column =
      .done ([Nat.toDigits 10 (digitsValue a1.value + digitsValue a2.value)], []) := by
    cases hue : upper.evaluated with
    | false =>
      exact evaluateEquation_sum_rows fuel table 1 column upper a1 a2 ha1 hl1 hd1 ha2 hl2
        hd2 hupper hue hne2
    | true =>
      rw [evaluateEquation, hupper]
      simp only [hue, true_or, if_true, hmemo hue]
  rw [hlq, evaluateEquation_copy (fuel + 2) table 2 column lower hlower hle hne,
    show (2 : Int) - 1 = 1 from rfl, hupper]
  simp only [huq, habove, join]
  rw [finish_single _ (fun h => isDigits_no_comma hd _ h rfl)]

/-- Witness of C13 (amended): with `A1 = 1`, `A2 = 2`, `A3 = 3`, `B2 = "=sum(A1,A2)"`
and `B3 = "=^^"`, evaluating `B3` gives `["3"]`, before `B2` is evaluated and after. -/
theorem evaluateEquation_copy_sum_witness :
    evaluateEquation 3 copySumTable "^^".toList 2 1 = .done (["3".toList], []) ∧
    evaluateEquation 3 copySumReachedTable "^^".toList 2 1 = .done (["3".toList], []) :=
  ⟨(evaluateEquation_copy_sum 0 copySumTable 1
    ⟨[], "sum(A1,A2)".toList, 1, 1, false⟩ ⟨[], "^^".toList, 1, 2, false⟩
    ⟨"1".toList, [], 0, 0, false⟩ ⟨"2".toList, [], 0, 1, false⟩
    rfl rfl (by decide) rfl rfl (by decide) rfl rfl (by decide) rfl rfl rfl).trans (by decide),
   (evaluateEquation_copy_sum 0 copySumReachedTable 1
    ⟨"3".toList, "sum(A1,A2)".toList, 1, 1, true⟩ ⟨[], "^^".toList, 1, 2, false⟩
    ⟨"1".toList, [], 0, 0, true⟩ ⟨"2".toList, [], 0, 1, true⟩
    rfl rfl (by decide) rfl rfl (by decide) rfl rfl (by decide) rfl rfl rfl).trans
      (by decide)⟩

/-- C14 (the code at the failing input): on the one-cell table `=^^`,
`evaluateEquation` on the cell in row 0 indexes `table[-1]` and panics, and so does
`evaluateTable`. -/
theorem evaluateEquation_copy_row_zero :
    evaluateEquation 1 copyTopTable "^^".toList 0 0 = .panic ∧
    evaluateTable 1 copyTopTable = .panic := by
  decide

/-- C15 (the code at the failing input): on an unevaluated formula cell the formula
`sum(1`, whose parenthesis is never closed, evaluates to the single term `sum(1` with the
empty error string, for every budget of nested calls, and a table whose only cell holds
it ends with the value `sum(1`; the formula `sum(1))`, with a `)` at depth zero, does
evaluate to the error `"#ERROR"`. -/
theorem evaluateEquation_unclosed :
    (∀ fuel : Nat, evaluateEquation (fuel + 1) unclosedTable "sum(1".toList 0 0 =
      .done (["sum(1".toList], [])) ∧
    evaluateTable 1 unclosedTable =
      .done [[⟨"sum(1".toList, "sum(1".toList, 0, 0, true⟩]] ∧
    evaluateEquation 2 overclosedTable "sum(1))".toList 0 0 = .done ([], errorValue) :=
  ⟨fun _ => rfl, by decide, by decide⟩

/-- C16 as stated fails: on an unevaluated formula cell the formula `foo(1,2)`, whose
name ends with none of the six function names, evaluates to the single term `foo` with
the empty error string, and a table whose only cell holds it ends with the value `foo`. -/
theorem evaluateEquation_unknown_function :
    endsWithFunction "foo".toList = false ∧
    evaluateEquation 2 unknownTable "foo(1,2)".toList 0 0 = .done (["foo".toList], []) ∧
    evaluateTable 2 unknownTable =
      .done [[⟨"foo".toList, "foo(1,2)".toList, 0, 0, true⟩]] := by
  decide

/-- C16 (amended): a call to an unknown function is not an error. For every unevaluated
formula cell and every formula `name(a1,...,an)` where the name is made of bytes that
are ASCII and not a parenthesis, a double quote, a space, a comma, `^` or a digit, ends
with none of `concat`, `text`, `incFrom`, `sum`, `spread`, `split`, and the arguments are
one or more non-empty texts of decimal digits, `evaluateEquation` returns the single term
`name` with the empty error string: the arguments are dropped. -/
theorem evaluateEquation_unknown (fuel : Nat) (table : Table) (row column : Int) (cell : Cell)
    (name : GoString) (args : List GoString)
    (hcell : cellAt table row column = some cell) (hev : cell.evaluated = false)
    (heq : cell.equation = name ++ "(".toList ++ join args [','] ++ ")".toList)
    (hname : ∀ c ∈ name, isNameByte c = true) (hunknown : endsWithFunction name = false)
    (hne : args ≠ []) (hargs : ∀ t ∈ args, isDigits t = true) :
    evaluateEquation (fuel + 2) table cell.equation row column = .done ([name], []) := by
  obtain ⟨a, rest, rfl⟩ := List.exists_cons_of_ne_nil hne
  have heq2 : cell.equation ≠ [] := by rw [heq]; simp
  have hopen : '(' ∉ name := fun h => by
    have := hname '(' h
    revert this
    decide
  have hcomma : ',' ∉ name := fun h => by
    have := hname ',' h
    revert this
    decide
  rw [evaluateEquation, hcell]
  simp only [hev, heq2, Bool.false_eq_true, or_self, if_false]
  rw [heq, List.append_assoc, List.append_assoc,
    scanLoop_name _ table row column name _ none _ hname]
  rw [show "(".toList = ['('] from rfl, List.cons_append, List.nil_append, scanLoop,
    scanStep_open _ table row column _ _ rfl]
  simp only [List.nil_append, zero_add]
  rw [scanLoop_inert _ table row column _ _ (some '(') _ (join_inert rest a 1 (by decide) hargs)
    rfl (Or.inr ⟨'(', rfl, by decide⟩)]
  rw [show ")".toList = [')'] from rfl, scanLoop]
  rw [scanStep_close _ table row column _ _ name (join (a :: rest) [',']) rfl rfl
    (by simp) hopen]
  rw [evaluateEquation_terms fuel table row column cell hcell hev heq2 a rest hargs]
  simp only [applyFunction_unknown name _ hunknown,
    show ¬ (([] : GoString) = errorValue) from by decide, if_false, scanLoop]
  rw [finish_single name hcomma]

/-- Witness of C16 (amended): `foo(1,2)` gives the single term `foo`. -/
theorem evaluateEquation_unknown_witness :
    evaluateEquation 2 unknownTable "foo(1,2)".toList 0 0 = .done (["foo".toList], []) :=
  evaluateEquation_unknown 0 unknownTable 0 0 ⟨[], "foo(1,2)".toList, 0, 0, false⟩
    "foo".toList ["1".toList, "2".toList] rfl rfl rfl (by decide) (by decide) (by decide)
    (by decide)

/-- C17 (the code at the failing inputs): `evaluateConcat(["\""])` slices `[1:0]` and
`evaluateSplit` slices `[:len-2]` on the empty list and on a one-element list: each
panics.  The formulas `concat(",")` and `split(1)` reach these calls. -/
theorem builtins_panic :
    evaluateConcat ["\"".toList] = none ∧
    evaluateSplit [] = none ∧
    evaluateSplit ["1".toList] = none ∧
    evaluateEquation 2 formulaTable "concat(\",\")".toList 0 0 = .panic ∧
    evaluateEquation 2 formulaTable "split(1)".toList 0 0 = .panic := by
  decide

/-- C18 (the code at the failing input): on the grid `A1 = "=B1"`, `B1 = "=A1"` the
recursion of `evaluateEquation` is not bounded: whatever the budget of nested calls,
the evaluation of `A1` does not return, and neither does `evaluateTable`. -/
theorem evaluateTable_cycle (fuel : Nat) :
    evaluateEquation fuel cycleTable "B1".toList 0 0 = .timeout ∧
    evaluateTable fuel cycleTable = .timeout := by
  refine ⟨(cycle_timeout fuel).1, ?_⟩
  have hcell : evaluateCell fuel cycleTable 0 0 = .timeout := by
    unfold evaluateCell
    simp only [show cellAt cycleTable ((0 : Nat) : Int) ((0 : Nat) : Int) =
        some ⟨[], "B1".toList, 0, 0, false⟩ from rfl,
      show ("B1".toList ≠ []) from by decide, if_true]
    have h := (cycle_timeout fuel).1
    simp only [Nat.cast_zero] at h ⊢
    rw [h, if_pos (by decide)]
  have hrow : evaluateRow fuel 0 (List.range (cycleTable.getD 0 []).length) cycleTable
      = .timeout := by
    rw [show List.range (cycleTable.getD 0 []).length = [0, 1] from rfl, evaluateRow, hcell]
  rw [evaluateTable, show List.range cycleTable.length = [0] from rfl, evaluateRows, hrow]

/-- C19: `evaluateTable` is idempotent. For every grid on which `evaluateTable` completes,
every cell of the resulting grid is marked evaluated, and running `evaluateTable` a second
time, with any budget of one nested call or more, completes and leaves the grid, that is
every field of every cell, unchanged. -/
theorem evaluateTable_idempotent (fuel fuel2 : Nat) (table table2 : Table)
    (h : evaluateTable fuel table = .done table2) :
    (∀ cells ∈ table2, ∀ cell ∈ cells, cell.evaluated = true) ∧
      evaluateTable (fuel2 + 1) table2 = .done table2 := by
  have hall : ∀ cells ∈ table2, ∀ cell ∈ cells, cell.evaluated = true := by
    intro cells hr cell hc
    obtain ⟨h1, h2, _, h4⟩ := evaluateRows_keeps fuel _ table table2 h
    obtain ⟨i, j, hi, hj, hij⟩ := cellAt_of_mem table2 cells cell hr hc
    have := h4 i (List.mem_range.mpr (h1 ▸ hi)) j (by rw [← h2 i]; exact hj)
    unfold evaluatedAt at this
    rw [hij] at this
    exact this
  exact ⟨hall, evaluateRows_fixed fuel2 table2 hall _⟩

/-- Witness of C19: the table of the lines `1|`, `2|=sum(A1,A2)` and `3|=^^` is evaluated
with every cell marked, and a second run leaves it as it is. -/
theorem evaluateTable_idempotent_witness :
    evaluateTable 3 copySumTable = .done
        [[⟨"1".toList, [], 0, 0, true⟩, ⟨[], [], 1, 0, true⟩],
         [⟨"2".toList, [], 0, 1, true⟩, ⟨"3".toList, "sum(A1,A2)".toList, 1, 1, true⟩],
         [⟨"3".toList, [], 0, 2, true⟩, ⟨"3".toList, "^^".toList, 1, 2, true⟩]] ∧
      ((∀ cells ∈ ([[⟨"1".toList, [], 0, 0, true⟩, ⟨[], [], 1, 0, true⟩],
         [⟨"2".toList, [], 0, 1, true⟩, ⟨"3".toList, "sum(A1,A2)".toList, 1, 1, true⟩],
         [⟨"3".toList, [], 0, 2, true⟩, ⟨"3".toList, "^^".toList, 1, 2, true⟩]] : Table),
          ∀ cell ∈ cells, cell.evaluated = true) ∧
        evaluateTable 1
          [[⟨"1".toList, [], 0, 0, true⟩, ⟨[], [], 1, 0, true⟩],
           [⟨"2".toList, [], 0, 1, true⟩, ⟨"3".toList, "sum(A1,A2)".toList, 1, 1, true⟩],
           [⟨"3".toList, [], 0, 2, true⟩, ⟨"3".toList, "^^".toList, 1, 2, true⟩]] = .done
          [[⟨"1".toList, [], 0, 0, true⟩, ⟨[], [], 1, 0, true⟩],
           [⟨"2".toList, [], 0, 1, true⟩, ⟨"3".toList, "sum(A1,A2)".toList, 1, 1, true⟩],
           [⟨"3".toList, [], 0, 2, true⟩, ⟨"3".toList, "^^".toList, 1, 2, true⟩]]) :=
  ⟨by decide, evaluateTable_idempotent 3 0 copySumTable _ (by decide)⟩

end CsvSolver
